import Mathlib

/-!
Verification of the imgtsero HLA conversion library.

The development embeds the core of the library (the WMDA table parser in
`parser.py`, the bidirectional converter in `converter.py` and the KIR
ligand classifier in `kir_ligand.py`) as executable Lean definitions over
`List Char` strings, and proves or refutes the behavioural claims about it.

Python strings are modelled as `List Char`; Python dictionaries as
association lists with overwrite-update; Python sets as duplicate-free
lists with membership-based insertion; raised exceptions as `Except`
results.  Python `re.match` with the concrete anchored patterns used by
the source is modelled by equivalent deterministic scanners (the character
classes involved are disjoint, so the regexes are backtracking-free).
-/

namespace Imgtsero

/-- Characters considered upper-case letters by the pattern `[A-Z]`. -/
def isUpperC (c : Char) : Bool := decide ('A' ≤ c ∧ c ≤ 'Z')

/-- Characters considered digits by the patterns `\d` and `str.isdigit`
for the ASCII inputs handled here. -/
def isDigitC (c : Char) : Bool := decide ('0' ≤ c ∧ c ≤ '9')

/-- Whitespace stripped by Python `str.strip`. -/
def isPySpace (c : Char) : Bool :=
  c = ' ' || c = '\t' || c = '\n' || c = '\r' || c = '\x0b' || c = '\x0c'

/-- Python `s.strip()`: drop leading and trailing whitespace. -/
def pyStrip (s : List Char) : List Char :=
  ((s.dropWhile isPySpace).reverse.dropWhile isPySpace).reverse

/-- Python `s.split(sep)` for a one-character separator: split on every
occurrence, keeping empty components.  Never returns the empty list. -/
def splitOnChar (c : Char) : List Char → List (List Char)
  | [] => [[]]
  | x :: xs =>
    if x = c then [] :: splitOnChar c xs
    else
      match splitOnChar c xs with
      | [] => [[x]]
      | h :: t => (x :: h) :: t

/-- `splitOnChar` never produces the empty list of components. -/
theorem splitOnChar_ne_nil (c : Char) (s : List Char) : splitOnChar c s ≠ [] := by
  cases s with
  | nil => simp [splitOnChar]
  | cons x xs =>
    simp only [splitOnChar]
    split
    · simp
    · cases h : splitOnChar c xs <;> simp

/-- Splitting a string that does not contain the separator yields the
string as its single component. -/
theorem splitOnChar_not_mem {c : Char} {s : List Char} (h : c ∉ s) :
    splitOnChar c s = [s] := by
  induction s with
  | nil => rfl
  | cons x xs ih =>
    simp only [List.mem_cons, not_or] at h
    have hx : ¬ (x = c) := fun he => h.1 he.symm
    simp only [splitOnChar, if_neg hx, ih h.2]

/-- Splitting at the first separator occurrence peels off the prefix. -/
theorem splitOnChar_append_cons {c : Char} {a : List Char} (b : List Char)
    (h : c ∉ a) : splitOnChar c (a ++ c :: b) = a :: splitOnChar c b := by
  induction a with
  | nil => simp [splitOnChar]
  | cons x xs ih =>
    simp only [List.mem_cons, not_or] at h
    have hx : ¬ (x = c) := fun he => h.1 he.symm
    simp only [List.cons_append, splitOnChar, if_neg hx]
    rw [show xs.append (c :: b) = xs ++ c :: b from rfl, ih h.2]

/-- Components produced by `splitOnChar` do not contain the separator. -/
theorem splitOnChar_not_mem_of_mem {c : Char} {s p : List Char}
    (hp : p ∈ splitOnChar c s) : c ∉ p := by
  induction s generalizing p with
  | nil =>
    simp only [splitOnChar, List.mem_singleton] at hp
    subst hp; simp
  | cons x xs ih =>
    simp only [splitOnChar] at hp
    by_cases hx : x = c
    · rw [if_pos hx] at hp
      rcases List.mem_cons.mp hp with h | h
      · subst h; simp
      · exact ih h
    · rw [if_neg hx] at hp
      rcases hsp : splitOnChar c xs with _ | ⟨h0, t⟩
      · exact absurd hsp (splitOnChar_ne_nil c xs)
      · rw [hsp] at hp
        rcases List.mem_cons.mp hp with h | h
        · subst h
          intro hc
          rcases List.mem_cons.mp hc with h | h
          · exact hx h.symm
          · exact ih (hsp ▸ List.mem_cons_self h0 t) h
        · exact ih (hsp ▸ List.mem_cons_of_mem h0 h)

/-- The head component of `splitOnChar` is the prefix before the first
separator; in particular the whole string starts with it. -/
theorem splitOnChar_head_append (c : Char) (s : List Char) :
    ∃ h t, splitOnChar c s = h :: t ∧
      ((t = [] ∧ s = h) ∨ ∃ r, s = h ++ c :: r) := by
  induction s with
  | nil => exact ⟨[], [], rfl, Or.inl ⟨rfl, rfl⟩⟩
  | cons x xs ih =>
    rcases ih with ⟨h, t, hsplit, hrest⟩
    by_cases hx : x = c
    · refine ⟨[], splitOnChar c xs, ?_, Or.inr ⟨xs, by rw [hx]; rfl⟩⟩
      simp [splitOnChar, hx]
    · refine ⟨x :: h, t, ?_, ?_⟩
      · simp only [splitOnChar, if_neg hx, hsplit]
      · rcases hrest with ⟨ht, hs⟩ | ⟨r, hs⟩
        · exact Or.inl ⟨ht, by rw [hs]⟩
        · exact Or.inr ⟨r, by rw [hs]; rfl⟩

/-- Python string comparison `a <= b` (lexicographic on code points),
used through `sorted`. -/
def strLe : List Char → List Char → Bool
  | [], _ => true
  | _ :: _, [] => false
  | a :: as, b :: bs => a < b || (a = b && strLe as bs)

/-- Python `a.startswith(b)` (`b` the pattern). -/
def strStarts : List Char → List Char → Bool
  | [], _ => true
  | _ :: _, [] => false
  | p :: ps, s :: ss => p = s && strStarts ps ss

/-- Python `s.endswith(t)`. -/
def strEnds (t s : List Char) : Bool := strStarts t.reverse s.reverse

/-- The ordering relation underlying Python `sorted` on strings. -/
def StrR (a b : List Char) : Prop := strLe a b = true

instance : DecidableRel StrR := fun a b => decEq (strLe a b) true

theorem strLe_total (a b : List Char) : strLe a b = true ∨ strLe b a = true := by
  induction a generalizing b with
  | nil => exact Or.inl rfl
  | cons x xs ih =>
    cases b with
    | nil => exact Or.inr rfl
    | cons y ys =>
      rcases lt_trichotomy x y with h | h | h
      · exact Or.inl (by simp [strLe, h])
      · subst h
        rcases ih ys with h2 | h2
        · exact Or.inl (by simp [strLe, h2])
        · exact Or.inr (by simp [strLe, h2])
      · exact Or.inr (by simp [strLe, h])

theorem strLe_trans {a b c : List Char} (h1 : strLe a b = true)
    (h2 : strLe b c = true) : strLe a c = true := by
  induction a generalizing b c with
  | nil => rfl
  | cons x xs ih =>
    cases b with
    | nil => simp [strLe] at h1
    | cons y ys =>
      cases c with
      | nil => simp [strLe] at h2
      | cons z zs =>
        simp only [strLe, Bool.or_eq_true, Bool.and_eq_true, decide_eq_true_eq] at h1 h2 ⊢
        rcases h1 with h1 | ⟨h1e, h1r⟩
        · rcases h2 with h2 | ⟨h2e, h2r⟩
          · exact Or.inl (lt_trans h1 h2)
          · exact Or.inl (h2e ▸ h1)
        · rcases h2 with h2 | ⟨h2e, h2r⟩
          · exact Or.inl (h1e ▸ h2)
          · exact Or.inr ⟨h1e.trans h2e, ih h1r h2r⟩

instance : IsTotal (List Char) StrR := ⟨fun a b => strLe_total a b⟩

instance : IsTrans (List Char) StrR := ⟨fun _ _ _ => strLe_trans⟩

/-- Decidable equality for `Except`, used to evaluate concrete runs. -/
instance {e a : Type} [DecidableEq e] [DecidableEq a] : DecidableEq (Except e a) := fun x y =>
  match x, y with
  | Except.ok u, Except.ok v =>
    if h : u = v then isTrue (by rw [h]) else isFalse (by intro he; cases he; exact h rfl)
  | Except.error u, Except.error v =>
    if h : u = v then isTrue (by rw [h]) else isFalse (by intro he; cases he; exact h rfl)
  | Except.ok _, Except.error _ => isFalse (by intro he; cases he)
  | Except.error _, Except.ok _ => isFalse (by intro he; cases he)

/-! ### Association lists (Python `dict`) and list-backed sets (Python `set`) -/

/-- `dict` lookup: `m.get(k)` / `m[k]`. -/
def lookupA {β : Type} : List (List Char × β) → List Char → Option β
  | [], _ => none
  | (k, v) :: r, x => if k = x then some v else lookupA r x

/-- `dict` lookup with default: `m.get(k, d)`. -/
def lookupD {β : Type} (m : List (List Char × β)) (k : List Char) (d : β) : β :=
  match lookupA m k with
  | some v => v
  | none => d

/-- `dict` assignment `m[k] = v`: overwrite in place or append. -/
def updateA {β : Type} : List (List Char × β) → List Char → β → List (List Char × β)
  | [], k, v => [(k, v)]
  | (k', v') :: r, k, v =>
    if k' = k then (k, v) :: r else (k', v') :: updateA r k v

/-- `set.add`: append the element if it is not already present. -/
def setAdd {α : Type} [DecidableEq α] (l : List α) (x : α) : List α :=
  if x ∈ l then l else l ++ [x]

theorem lookupA_updateA_self {β : Type} (m : List (List Char × β)) (k : List Char)
    (v : β) : lookupA (updateA m k v) k = some v := by
  induction m with
  | nil => simp [updateA, lookupA]
  | cons p r ih =>
    obtain ⟨k', v'⟩ := p
    by_cases h : k' = k
    · simp [updateA, h, lookupA]
    · simp [updateA, h, lookupA, ih]

theorem lookupA_updateA_ne {β : Type} (m : List (List Char × β)) {k k' : List Char}
    (v : β) (h : k ≠ k') : lookupA (updateA m k v) k' = lookupA m k' := by
  induction m with
  | nil => simp [updateA, lookupA, h]
  | cons p r ih =>
    obtain ⟨k0, v0⟩ := p
    by_cases h0 : k0 = k
    · subst h0
      simp [updateA, lookupA, h, ih]
    · simp only [updateA, if_neg h0, lookupA]
      by_cases h1 : k0 = k'
      · simp [h1]
      · simp [h1, ih]

theorem mem_setAdd_self {α : Type} [DecidableEq α] (l : List α) (x : α) :
    x ∈ setAdd l x := by
  by_cases h : x ∈ l <;> simp [setAdd, h]

theorem mem_setAdd_of_mem {α : Type} [DecidableEq α] {l : List α} {y : α} (x : α)
    (h : y ∈ l) : y ∈ setAdd l x := by
  by_cases hx : x ∈ l <;> simp [setAdd, hx, h]

theorem mem_of_mem_setAdd {α : Type} [DecidableEq α] {l : List α} {x y : α}
    (h : y ∈ setAdd l x) : y ∈ l ∨ y = x := by
  by_cases hx : x ∈ l
  · simp only [setAdd, if_pos hx] at h; exact Or.inl h
  · simp only [setAdd, if_neg hx, List.mem_append, List.mem_singleton] at h
    exact h

/-! ### Core string primitives shared by `parser.py` and `converter.py` -/

/-- `_to_2field` (identical in `parser.py` and `converter.py`): truncate a
molecular allele with `*` and `:` to its first two colon-delimited fields;
return anything else unchanged. -/
def to_2field (s : List Char) : List Char :=
  if '*' ∈ s ∧ ':' ∈ s then
    match splitOnChar ':' s with
    | p0 :: p1 :: _ => p0 ++ ':' :: p1
    | _ => s
  else s

/-- The locus extraction regex `^([A-Z]+\d*)\*` used by both the parser and
the converter: a non-empty run of `[A-Z]`, then a run of digits, then `*`;
returns the captured group.  The character classes are disjoint so the
greedy deterministic scan is exactly the regex. -/
def extract_locus (s : List Char) : Option (List Char) :=
  let u := s.takeWhile isUpperC
  let r1 := s.dropWhile isUpperC
  let d := r1.takeWhile isDigitC
  let r2 := r1.dropWhile isDigitC
  if u.isEmpty then none
  else match r2 with
    | '*' :: _ => some (u ++ d)
    | _ => none

/-- The serological-format test `_is_serological`: no `*`, and the string
matches `^[A-Z]+\d+$` or `^Cw\d+$`. -/
def is_serological (s : List Char) : Bool :=
  let m1 :=
    let u := s.takeWhile isUpperC
    let r := s.dropWhile isUpperC
    !u.isEmpty && !r.isEmpty && r.all isDigitC
  let m2 :=
    match s with
    | 'C' :: 'w' :: ds => !ds.isEmpty && ds.all isDigitC
    | _ => false
  !s.contains '*' && (m1 || m2)

/-- Python truthiness of an optional string (`None` and `""` are falsy). -/
def pyTruthy (o : Option (List Char)) : Bool :=
  match o with
  | some s => !s.isEmpty
  | none => false

/-! ### Parser state and data loading (`parser.py`) -/

/-- The serological name written by `_load_rel_dna_ser` /
`get_molecular_to_serological` for a locus and a serological number:
`Cw{num}` for locus `C`, `{locus}{num}` otherwise. -/
def mkSeroName (locus num : List Char) : List Char :=
  if locus = ['C'] then 'C' :: 'w' :: num else locus ++ num

/-- In-memory indices of `HLAParser` after `_load_data`.
`_serological_mapping` and `_serological_to_molecular` hold the same
entries in the source (line 132 of `parser.py`), so a single field models
both. -/
structure ParserState where
  mts : List (List Char × List Char)
  stm : List (List Char × List (List Char))
  alleleData : List (List Char × List (List Char))
  broadToSplits : List (List Char × List (List Char))
  splitToBroad : List (List Char × List Char)
deriving DecidableEq, Repr

/-- Accumulator of the `_load_rel_dna_ser` line loop.  `stale` models the
Python local variable `sero_num`, which keeps its value from a previous
iteration when the `'?'` branch does not assign it. -/
structure DnaAcc where
  mts : List (List Char × List Char)
  stm : List (List Char × List (List Char))
  alleleData : List (List Char × List (List Char))
  stale : Option (List Char)
deriving DecidableEq, Repr

def DnaAcc.init : DnaAcc := ⟨[], [], [], none⟩

/-- Record a 2-field allele under a serological name: the pair of dict
writes `_molecular_to_serological[two_field] = num` and
`_serological_to_molecular[name].add(two_field)`. -/
def recordSero (acc : DnaAcc) (tf num name : List Char) : DnaAcc :=
  { acc with
    mts := updateA acc.mts tf num,
    stm := updateA acc.stm name (setAdd (lookupD acc.stm name []) tf) }

/-- One iteration of the `_load_rel_dna_ser` line loop.  Returns
`Except.error ()` exactly when Python would raise `UnboundLocalError`
(locus `C`, field `"?"`, allele suffix with fewer than two colon fields,
and no earlier iteration assigned `sero_num`). -/
def dnaStep (acc : DnaAcc) (line : List Char) : Except Unit DnaAcc :=
  let l := pyStrip line
  if l ≠ [] ∧ l.head? ≠ some '#' then
    match splitOnChar ';' l with
    | p0 :: p1 :: p2 :: _ =>
      if p0 ≠ [] ∧ p1 ≠ [] then
        let full := p0 ++ p1
        match extract_locus full with
        | some locus =>
          let acc1 := { acc with
            alleleData := updateA acc.alleleData locus
              (setAdd (lookupD acc.alleleData locus []) full) }
          let tf := to_2field full
          if p2 ≠ [] ∧ p2 ≠ ['0'] then
            if locus = ['C'] then
              let seroNum : Option (List Char) :=
                if p2 = ['?'] then
                  match splitOnChar ':' p1 with
                  | a0 :: _ :: _ => some a0
                  | _ => acc.stale
                else some p2
              match seroNum with
              | some num =>
                Except.ok { recordSero acc1 tf num ('C' :: 'w' :: num) with stale := some num }
              | none => Except.error ()
            else if p2 ≠ ['?'] then
              Except.ok (recordSero acc1 tf p2 (locus ++ p2))
            else Except.ok acc1
          else Except.ok acc1
        | none => Except.ok acc
      else Except.ok acc
    | _ => Except.ok acc
  else Except.ok acc

def dnaLoop : DnaAcc → List (List Char) → Except Unit DnaAcc
  | acc, [] => Except.ok acc
  | acc, line :: rest =>
    match dnaStep acc line with
    | Except.ok acc1 => dnaLoop acc1 rest
    | Except.error e => Except.error e

/-- The post-pass of `_load_rel_dna_ser` (lines 129-132): each
serological entry becomes `sorted(list(allele_set))`. -/
def finalizeDna (acc : DnaAcc) : ParserState :=
  { mts := acc.mts,
    stm := acc.stm.map (fun p => (p.1, List.insertionSort StrR (List.dedup p.2))),
    alleleData := acc.alleleData,
    broadToSplits := [],
    splitToBroad := [] }

/-- `_load_rel_dna_ser` over the list of lines of the
molecular/serological relationship file. -/
def loadRelDnaSer (lines : List (List Char)) : Except Unit ParserState :=
  match dnaLoop DnaAcc.init lines with
  | Except.ok acc => Except.ok (finalizeDna acc)
  | Except.error e => Except.error e

/-- One iteration of the `_load_rel_ser_ser` line loop. -/
def serStep (st : ParserState) (line : List Char) : ParserState :=
  let l := pyStrip line
  if l ≠ [] ∧ l.head? ≠ some '#' then
    match splitOnChar ';' l with
    | p0 :: p1 :: p2 :: p3 :: _ =>
      if p0 ≠ [] ∧ p1 ≠ [] then
        let broad := if p0 = ['C'] then 'C' :: 'w' :: p1 else p0 ++ p1
        let allSplits :=
          (if p2 ≠ [] then splitOnChar '/' p2 else []) ++
          (if p3 ≠ [] then splitOnChar '/' p3 else [])
        let names := (allSplits.filter (fun sn => !sn.isEmpty)).map
          (fun sn => if p0 = ['C'] then 'C' :: 'w' :: sn else p0 ++ sn)
        let st1 := { st with
          splitToBroad := names.foldl (fun m n => updateA m n broad) st.splitToBroad }
        if names ≠ [] then { st1 with broadToSplits := updateA st1.broadToSplits broad names }
        else st1
      else st
    | _ => st
  else st

/-- `_load_rel_ser_ser` over the lines of the broad/split file. -/
def loadRelSerSer (st : ParserState) (lines : List (List Char)) : ParserState :=
  lines.foldl serStep st

/-- `_load_data`: load the molecular/serological file, then (when present)
the broad/split file.  `serLines = none` models an absent broad/split
file, which the source tolerates. -/
def loadData (dnaLines : List (List Char)) (serLines : Option (List (List Char))) :
    Except Unit ParserState :=
  match loadRelDnaSer dnaLines with
  | Except.ok st =>
    Except.ok (match serLines with
      | some ls => loadRelSerSer st ls
      | none => st)
  | Except.error e => Except.error e

/-! ### Parser queries -/

/-- `HLAParser.get_molecular_to_serological`. -/
def get_molecular_to_serological (st : ParserState) (allele : List Char)
    (return_broad : Bool) : Option (List Char) :=
  match lookupA st.mts (to_2field allele) with
  | some num =>
    if num.isEmpty then none
    else
      match extract_locus allele with
      | some locus =>
        let seroName := mkSeroName locus num
        if return_broad then
          match lookupA st.splitToBroad seroName with
          | some b => some b
          | none => some seroName
        else some seroName
      | none => none
  | none => none

/-- `HLAParser.get_serological_mapping`. -/
def get_serological_mapping (st : ParserState) (sero : List Char)
    (expand_splits : Bool) : List (List Char) :=
  let alleles := lookupD st.stm sero []
  if expand_splits then
    match lookupA st.broadToSplits sero with
    | some splits =>
      let alleles2 := alleles ++ splits.flatMap (fun sp => lookupD st.stm sp [])
      List.insertionSort StrR (List.dedup alleles2)
    | none => alleles
  else alleles

/-- `HLAParser.get_broad_antigen`. -/
def get_broad_antigen (st : ParserState) (sero : List Char) : Option (List Char) :=
  lookupA st.splitToBroad sero

/-! ### Converter (`converter.py`) -/

/-- Kinds of `ValueError` raised by `HLAConverter.convert` argument
validation. -/
inductive ArgErrKind where
  | badHandleBroad
  | badTargetFormat
deriving DecidableEq, Repr

/-- Kinds of `HLAConversionError` raised by the conversion logic, one per
distinct message. -/
inductive DomErrKind where
  | unrecognizedMolecular
  | unrecognizedSerological
  | invalidFormat
  | noSeroEquiv
  | noMolEquiv
deriving DecidableEq, Repr

/-- The two Python exception classes seen by a caller of `convert`:
`ValueError` for argument errors, `HLAConversionError` for domain
errors. -/
inductive ConvErr where
  | argError (k : ArgErrKind)
  | domainError (k : DomErrKind)
deriving DecidableEq, Repr

/-- Return value of `convert`: a string for serological output, a list
for molecular output. -/
inductive ConvOut where
  | sero (s : List Char)
  | mol (l : List (List Char))
deriving DecidableEq, Repr

/-- `HLAConverter._is_valid_molecular_allele`. -/
def is_valid_molecular_allele (st : ParserState) (s : List Char) : Bool :=
  if '*' ∉ s then false
  else
    match extract_locus s with
    | none => false
    | some locus =>
      let alleles := lookupD st.alleleData locus []
      s ∈ alleles || alleles.any (fun a => to_2field a = to_2field s)

/-- `HLAConverter._is_valid_serological_allele`: key membership in
`_serological_mapping`. -/
def is_valid_serological_allele (st : ParserState) (s : List Char) : Bool :=
  (lookupA st.stm s).isSome

/-- `HLAConverter._format_serological_result`. -/
def format_serological_result (st : ParserState) (sero hb : List Char) : List Char :=
  if hb = "split".toList then sero
  else if hb = "broad".toList then
    match get_broad_antigen st sero with
    | some b => if b.isEmpty then sero else b
    | none => sero
  else if hb = "both".toList then
    match get_broad_antigen st sero with
    | some b => if b.isEmpty then sero else b ++ ' ' :: '(' :: (sero ++ [')'])
    | none => sero
  else sero

/-- The serological-name resolution inside `_to_serology`: exact lookup,
then 2-field lookup (`get_molecular_to_serological` truncates to 2 fields
itself, and Python keeps the first truthy result). -/
def resolveSero (st : ParserState) (s : List Char) : Option (List Char) :=
  let s1 := get_molecular_to_serological st s false
  if pyTruthy s1 then s1 else get_molecular_to_serological st (to_2field s) false

/-- `HLAConverter._to_serology`. -/
def to_serology (st : ParserState) (s hb : List Char) : Except DomErrKind (List Char) :=
  if '*' ∈ s then
    if !is_valid_molecular_allele st s then Except.error DomErrKind.unrecognizedMolecular
    else
      match resolveSero st s with
      | some sero =>
        if sero.isEmpty then Except.error DomErrKind.noSeroEquiv
        else Except.ok (format_serological_result st sero hb)
      | none => Except.error DomErrKind.noSeroEquiv
  else if is_serological s then
    if !is_valid_serological_allele st s then Except.error DomErrKind.unrecognizedSerological
    else Except.ok s
  else Except.error DomErrKind.invalidFormat

/-- `HLAConverter._to_molecular`. -/
def to_molecular (st : ParserState) (s : List Char) (expand_splits : Bool) :
    Except DomErrKind (List (List Char)) :=
  if is_serological s then
    if !is_valid_serological_allele st s then Except.error DomErrKind.unrecognizedSerological
    else
      let raw := get_serological_mapping st s expand_splits
      if raw.isEmpty then Except.error DomErrKind.noMolEquiv
      else Except.ok (raw.map to_2field)
  else if '*' ∈ s then
    if !is_valid_molecular_allele st s then Except.error DomErrKind.unrecognizedMolecular
    else Except.ok [to_2field s]
  else Except.error DomErrKind.invalidFormat

/-- `HLAConverter.convert`. -/
def convert (st : ParserState) (s : List Char) (target_format : Option (List Char))
    (expand_splits : Bool) (hb : List Char) : Except ConvErr ConvOut :=
  if hb ≠ "split".toList ∧ hb ≠ "broad".toList ∧ hb ≠ "both".toList then
    Except.error (ConvErr.argError ArgErrKind.badHandleBroad)
  else
    match target_format with
    | none =>
      if is_serological s then
        match to_molecular st s expand_splits with
        | Except.ok l => Except.ok (ConvOut.mol l)
        | Except.error e => Except.error (ConvErr.domainError e)
      else
        match to_serology st s hb with
        | Except.ok r => Except.ok (ConvOut.sero r)
        | Except.error e => Except.error (ConvErr.domainError e)
    | some tf =>
      if tf = "s".toList then
        match to_serology st s hb with
        | Except.ok r => Except.ok (ConvOut.sero r)
        | Except.error e => Except.error (ConvErr.domainError e)
      else if tf = "m".toList then
        match to_molecular st s expand_splits with
        | Except.ok l => Except.ok (ConvOut.mol l)
        | Except.error e => Except.error (ConvErr.domainError e)
      else Except.error (ConvErr.argError ArgErrKind.badTargetFormat)

/-! ### KIR ligand classifier (`kir_ligand.py`) -/

/-- Python `str.isdigit` for the ASCII strings handled here. -/
def pyIsDigitStr (s : List Char) : Bool := !s.isEmpty && s.all isDigitC

/-- `KIRLigandClassifier._normalize_version`.  The `try` block of the
source can never raise for a string input, so it is modelled without an
exception path; the final `return version_str` returns the value already
stripped of a trailing `".0"`. -/
def normalize_version (s : List Char) : List Char :=
  if '.' ∈ s ∧ s.count '.' = 2 then s
  else if s.length = 4 ∧ pyIsDigitStr s then
    match s with
    | c0 :: c1 :: c2 :: _ =>
      let minor := (c1 :: c2 :: []).dropWhile (fun c => c = '0')
      c0 :: '.' :: (if minor.isEmpty then ['0'] else minor) ++ ".0".toList
    | _ => s
  else
    let s1 := if strEnds ".0".toList s then s.take (s.length - 2) else s
    match splitOnChar '.' s1 with
    | [a, b] => a ++ '.' :: b ++ ".0".toList
    | [a] => if a.length ≤ 2 then a ++ ".0.0".toList else s1
    | _ => s1

/-- A KIR ligand map: allele name to ligand detail, where `none` models a
JSON/Python `null` value. -/
abbrev KirMap : Type := List (List Char × Option (List Char))

/-- Structured content of the `ValueError` raised by
`_compress_to_four_digit`: for each inconsistent 4-digit group, the group
key and the conflicting `(allele, value)` pairs its message lists. -/
abbrev KirConflicts : Type := List (List Char × List (List Char × List Char))

/-- Insert an `(allele, value)` pair into the 4-digit group table
(`four_digit_groups[four_digit].add((allele, kir_ligand))`). -/
def addPair (gs : List (List Char × List (List Char × List Char)))
    (fd : List Char) (p : List Char × List Char) :
    List (List Char × List (List Char × List Char)) :=
  match gs with
  | [] => [(fd, [p])]
  | (k, ms) :: r => if k = fd then (k, setAdd ms p) :: r else (k, ms) :: addPair r fd p

/-- The 4-digit (2-field) form used by the compression grouping:
`f"{parts[0]}:{parts[1]}"` of the colon split (meaningful when the split
has at least two components). -/
def fourDigitOf (a : List Char) : List Char :=
  match splitOnChar ':' a with
  | q0 :: q1 :: _ => q0 ++ ':' :: q1
  | _ => a

/-- One iteration of the grouping loop of `_compress_to_four_digit`. -/
def fdStep (gs : List (List Char × List (List Char × List Char)))
    (p : List Char × Option (List Char)) :
    List (List Char × List (List Char × List Char)) :=
  match p.2 with
  | none => gs
  | some v =>
    if 2 ≤ (splitOnChar ':' p.1).length then addPair gs (fourDigitOf p.1) (p.1, v)
    else gs

/-- The grouping pass of `_compress_to_four_digit`: group every
non-null-valued allele that has at least two colon fields by its 2-field
form. -/
def fourDigitGroups (m : KirMap) : List (List Char × List (List Char × List Char)) :=
  m.foldl fdStep []

/-- One iteration of the A-locus 2-digit grouping loop of
`_compress_to_four_digit` (the colon split is never empty, so the
`len(parts) >= 1` test of the source is always true). -/
def twoStep (gs : List (List Char × List (List Char × List Char)))
    (p : List Char × Option (List Char)) :
    List (List Char × List (List Char × List Char)) :=
  match p.2 with
  | none => gs
  | some v =>
    if strStarts ("A*".toList) p.1 then addPair gs ((splitOnChar ':' p.1).headI) (p.1, v)
    else gs

/-- The distinct ligand values of a group (`{kir for _, kir in allele_set}`). -/
def groupVals (ms : List (List Char × List Char)) : List (List Char) :=
  List.dedup (ms.map Prod.snd)

/-- `dict.update` for a list of key-value pairs. -/
def updateMany {β : Type} (m : List (List Char × β)) (kvs : List (List Char × β)) :
    List (List Char × β) :=
  kvs.foldl (fun acc p => updateA acc p.1 p.2) m

/-- `KIRLigandClassifier._compress_to_four_digit`. -/
def compress_to_four_digit (m : KirMap) : Except KirConflicts KirMap :=
  let gs := fourDigitGroups m
  let bad := gs.filter (fun g => (groupVals g.2).length ≠ 1)
  if bad.isEmpty then
    let compressed := gs.map (fun g => (g.1, some (groupVals g.2).headI))
    let result := updateMany m compressed
    let twoGs := m.foldl twoStep []
    let result2 := updateMany result
      ((twoGs.filter (fun g => (groupVals g.2).length = 1)).map
        (fun g => (g.1, some (groupVals g.2).headI)))
    Except.ok result2
  else Except.error bad

/-- `KIRLigandClassifier.get_kir_ligand`: exact lookup, then progressively
shorter prefixes of colon fields from `len(parts)-1` down to `1`; a key
that is present with a `null` value answers `None` and stops the
search. -/
def joinColon : List (List Char) → List Char
  | [] => []
  | [p] => p
  | p :: rest => p ++ ':' :: joinColon rest

def get_kir_ligand (K : KirMap) (s : List Char) : Option (List Char) :=
  match lookupA K s with
  | some v => v
  | none =>
    let parts := splitOnChar ':' s
    let rec go : Nat → Option (List Char)
      | 0 => none
      | Nat.succ i =>
        if i = 0 then none
        else
          match lookupA K (joinColon (parts.take i)) with
          | some v => v
          | none => go i
    go parts.length

/-- `self.kir_receptors`. -/
def kir_receptors (base : List Char) : List (List Char) :=
  if base = "Bw4".toList then ["KIR3DL1".toList]
  else if base = "C1".toList then ["KIR2DL2".toList, "KIR2DL3".toList]
  else if base = "C2".toList then ["KIR2DL1".toList]
  else []

/-- Result dictionary of the KIR classification functions.  `detail`
uses `none` for a dictionary that has no `kir_ligand_type_detail` key at
all (the fixed results built inside `classify_kir_ligand`) and
`some none` for a present key holding `None`. -/
structure KirResult where
  is_kir_ligand : Bool
  kir_ligand_type : Option (List Char)
  detail : Option (Option (List Char))
  receptors : List (List Char)
  source : Option (List Char)
deriving DecidableEq, Repr

/-- The base ligand type derived from a detail string: prefix `Bw4`
keeps `Bw4`; exact `C1`/`C2`/`Bw6` keep themselves. -/
def baseOfDetail (d : List Char) : Option (List Char) :=
  if strStarts "Bw4".toList d then some ("Bw4".toList)
  else if d = "C1".toList ∨ d = "C2".toList ∨ d = "Bw6".toList then some d
  else none

/-- `KIRLigandClassifier.classify_allele`.  A bead-annotation conflict
raises `ValueError`, modelled as `Except.error`. -/
def classify_allele (K : KirMap) (s : List Char) (bead : Option (List Char)) :
    Except Unit KirResult :=
  let d := get_kir_ligand K s
  let base : Option (List Char) :=
    match d with
    | some dv => if dv.isEmpty then none else baseOfDetail dv
    | none => none
  let isLig : Bool :=
    match base with
    | some b => decide (b = "Bw4".toList ∨ b = "C1".toList ∨ b = "C2".toList)
    | none => false
  let res : KirResult :=
    { is_kir_ligand := isLig,
      kir_ligand_type := base,
      detail := some d,
      receptors := match base with
        | some b => if b = "Bw4".toList ∨ b = "C1".toList ∨ b = "C2".toList
            then kir_receptors b else []
        | none => [],
      source := match d with
        | some dv => if dv.isEmpty then none else some ("api".toList)
        | none => none }
  match bead with
  | some ba =>
    if ba = "Bw4".toList ∨ ba = "Bw6".toList then
      match base with
      | some b => if b ≠ ba then Except.error () else Except.ok res
      | none => Except.ok res
    else Except.ok res
  | none => Except.ok res

/-- Python `", ".join(sorted(xs))` over a set modelled as a list. -/
def joinSorted (xs : List (List Char)) : List Char :=
  match List.insertionSort StrR xs with
  | [] => []
  | h :: t => t.foldl (fun acc x => acc ++ ',' :: ' ' :: x) h

/-- `KIRLigandClassifier.classify_serological`. -/
def classify_serological (K : KirMap) (mols : List (List Char))
    (bead : Option (List Char)) : Except Unit KirResult :=
  let detailTypes := List.dedup (mols.filterMap
    (fun a => match get_kir_ligand K a with
      | some d => if d.isEmpty then none else some d
      | none => none))
  let baseTypes := List.dedup (mols.filterMap
    (fun a => match get_kir_ligand K a with
      | some d => if d.isEmpty then none else baseOfDetail d
      | none => none))
  let res : KirResult :=
    match baseTypes with
    | [b] =>
      let d := match detailTypes with
        | [d0] => d0
        | _ => "Mixed: ".toList ++ joinSorted detailTypes
      { is_kir_ligand := b = "Bw4".toList ∨ b = "C1".toList ∨ b = "C2".toList,
        kir_ligand_type := some b,
        detail := some (some d),
        receptors := if b = "Bw4".toList ∨ b = "C1".toList ∨ b = "C2".toList
          then kir_receptors b else [],
        source := some ("api".toList) }
    | [] =>
      { is_kir_ligand := false, kir_ligand_type := none, detail := some none,
        receptors := [], source := none }
    | _ =>
      { is_kir_ligand := false,
        kir_ligand_type := some ("Mixed: ".toList ++ joinSorted baseTypes),
        detail := some (some ("Mixed: ".toList ++ joinSorted detailTypes)),
        receptors := [], source := some ("api".toList) }
  match bead with
  | some ba =>
    if ba = "Bw4".toList ∨ ba = "Bw6".toList then
      match res.kir_ligand_type with
      | some t =>
        if !t.isEmpty ∧ t ≠ ba ∧ ¬ strStarts "Mixed:".toList t then Except.error ()
        else Except.ok res
      | none => Except.ok res
    else Except.ok res
  | none => Except.ok res

/-- The fixed empty classification dictionary built inside
`classify_kir_ligand` (it has no `kir_ligand_type_detail` key). -/
def emptyKirResult : KirResult :=
  { is_kir_ligand := false, kir_ligand_type := none, detail := none,
    receptors := [], source := none }

/-- `HLAConverter.classify_kir_ligand`, with the KIR classifier enabled
and its data loaded (the lazy data loading and the `enable_kir` guard are
outside the state modelled here). -/
def classify_kir_ligand (st : ParserState) (K : KirMap) (s : List Char)
    (bead : Option (List Char)) : Except Unit KirResult :=
  if '*' ∈ s then classify_allele K s bead
  else if is_serological s then
    match to_molecular st s false with
    | Except.ok mols => classify_serological K mols bead
    | Except.error _ => Except.ok emptyKirResult
  else Except.ok emptyKirResult

/-! ### General lemmas about the converter dispatch -/

theorem convert_target_s (st : ParserState) (s : List Char) (ex : Bool) (hb : List Char)
    (h : hb = "split".toList ∨ hb = "broad".toList ∨ hb = "both".toList) :
    convert st s (some ("s".toList)) ex hb =
      match to_serology st s hb with
      | Except.ok r => Except.ok (ConvOut.sero r)
      | Except.error e => Except.error (ConvErr.domainError e) := by
  have hcond : ¬(hb ≠ "split".toList ∧ hb ≠ "broad".toList ∧ hb ≠ "both".toList) := by
    rcases h with h | h | h <;> simp [h]
  unfold convert
  rw [if_neg hcond]
  simp

theorem convert_target_m (st : ParserState) (s : List Char) (ex : Bool) (hb : List Char)
    (h : hb = "split".toList ∨ hb = "broad".toList ∨ hb = "both".toList) :
    convert st s (some ("m".toList)) ex hb =
      match to_molecular st s ex with
      | Except.ok l => Except.ok (ConvOut.mol l)
      | Except.error e => Except.error (ConvErr.domainError e) := by
  have hcond : ¬(hb ≠ "split".toList ∧ hb ≠ "broad".toList ∧ hb ≠ "both".toList) := by
    rcases h with h | h | h <;> simp [h]
  unfold convert
  rw [if_neg hcond]
  have hm : (("m".toList = "s".toList) = False) := by simp
  simp [hm]

theorem convert_auto (st : ParserState) (s : List Char) (ex : Bool) (hb : List Char)
    (h : hb = "split".toList ∨ hb = "broad".toList ∨ hb = "both".toList) :
    convert st s none ex hb =
      if is_serological s then
        match to_molecular st s ex with
        | Except.ok l => Except.ok (ConvOut.mol l)
        | Except.error e => Except.error (ConvErr.domainError e)
      else
        match to_serology st s hb with
        | Except.ok r => Except.ok (ConvOut.sero r)
        | Except.error e => Except.error (ConvErr.domainError e) := by
  have hcond : ¬(hb ≠ "split".toList ∧ hb ≠ "broad".toList ∧ hb ≠ "both".toList) := by
    rcases h with h | h | h <;> simp [h]
  unfold convert
  rw [if_neg hcond]

theorem is_serological_no_star {s : List Char} (h : is_serological s = true) :
    '*' ∉ s := by
  simp only [is_serological, Bool.and_eq_true, Bool.not_eq_true'] at h
  intro hmem
  have h1 := h.1
  simp only [List.contains, List.elem_eq_mem, decide_eq_false_iff_not] at h1
  exact h1 hmem

/-! ### C1: broad/split formatting of a resolved serological name -/

/-- **C1.** For a molecular allele `m` whose serological resolution yields
the (non-empty) name `R`, converting with `target_format="s"` returns:
`R` for `handle_broad="split"`; the broad name `B` for `"broad"` when `R`
is a known split, else `R`; the literal `"B (R)"` for `"both"` when `R`
is a known split, else `R`.  (Broad names produced by the loader are
non-empty, hence the `B ≠ []` hypothesis.) -/
theorem broad_split_formatting (st : ParserState) (m R : List Char)
    (hstar : '*' ∈ m) (hval : is_valid_molecular_allele st m = true)
    (hres : resolveSero st m = some R) (hRne : R ≠ []) :
    convert st m (some ("s".toList)) false ("split".toList) = Except.ok (ConvOut.sero R)
    ∧ (∀ B, lookupA st.splitToBroad R = some B → B ≠ [] →
        convert st m (some ("s".toList)) false ("broad".toList) = Except.ok (ConvOut.sero B))
    ∧ (lookupA st.splitToBroad R = none →
        convert st m (some ("s".toList)) false ("broad".toList) = Except.ok (ConvOut.sero R))
    ∧ (∀ B, lookupA st.splitToBroad R = some B → B ≠ [] →
        convert st m (some ("s".toList)) false ("both".toList) =
          Except.ok (ConvOut.sero (B ++ ' ' :: '(' :: (R ++ [')']))))
    ∧ (lookupA st.splitToBroad R = none →
        convert st m (some ("s".toList)) false ("both".toList) = Except.ok (ConvOut.sero R)) := by
  have hRe : R.isEmpty = false := by
    cases R with
    | nil => exact absurd rfl hRne
    | cons a l => rfl
  have hser : ∀ hb, to_serology st m hb =
      Except.ok (format_serological_result st R hb) := by
    intro hb
    simp [to_serology, hstar, hval, hres, hRe]
  refine ⟨?_, ?_, ?_, ?_, ?_⟩
  · rw [convert_target_s st m false _ (Or.inl rfl), hser]
    simp [format_serological_result]
  · intro B hB hBne
    have hBe : B.isEmpty = false := by
      cases B with
      | nil => exact absurd rfl hBne
      | cons a l => rfl
    rw [convert_target_s st m false _ (Or.inr (Or.inl rfl)), hser]
    have h1 : ("broad".toList ≠ "split".toList) := by decide
    simp [format_serological_result, h1, get_broad_antigen, hB, hBe]
  · intro hB
    rw [convert_target_s st m false _ (Or.inr (Or.inl rfl)), hser]
    have h1 : ("broad".toList ≠ "split".toList) := by decide
    simp [format_serological_result, h1, get_broad_antigen, hB]
  · intro B hB hBne
    have hBe : B.isEmpty = false := by
      cases B with
      | nil => exact absurd rfl hBne
      | cons a l => rfl
    rw [convert_target_s st m false _ (Or.inr (Or.inr rfl)), hser]
    have h1 : ("both".toList ≠ "split".toList) := by decide
    have h2 : ("both".toList ≠ "broad".toList) := by decide
    simp [format_serological_result, h1, h2, get_broad_antigen, hB, hBe]
  · intro hB
    rw [convert_target_s st m false _ (Or.inr (Or.inr rfl)), hser]
    have h1 : ("both".toList ≠ "split".toList) := by decide
    have h2 : ("both".toList ≠ "broad".toList) := by decide
    simp [format_serological_result, h1, h2, get_broad_antigen, hB]

/-- A small concrete loaded state used by witnesses: two A alleles, with
`A203` a split of broad `A2`. -/
def wSt1 : ParserState :=
  match loadData ["A*;02:03;203;;".toList, "A*;02:01;2;;".toList]
      (some ["A;2;;203/210".toList]) with
  | Except.ok st => st
  | Except.error _ => ⟨[], [], [], [], []⟩

/-- Witness for C1 on a concrete loaded state: `A*02:03` resolves to
`A203`, a split of `A2`. -/
theorem broad_split_formatting_witness :
    convert wSt1 ("A*02:03".toList) (some ("s".toList)) false ("split".toList) =
        Except.ok (ConvOut.sero ("A203".toList))
      ∧ convert wSt1 ("A*02:03".toList) (some ("s".toList)) false ("broad".toList) =
        Except.ok (ConvOut.sero ("A2".toList))
      ∧ convert wSt1 ("A*02:03".toList) (some ("s".toList)) false ("both".toList) =
        Except.ok (ConvOut.sero ("A2 (A203)".toList))
      ∧ convert wSt1 ("A*02:01".toList) (some ("s".toList)) false ("both".toList) =
        Except.ok (ConvOut.sero ("A2".toList)) := by
  refine ⟨?_, ?_, ?_, ?_⟩
  · exact (broad_split_formatting wSt1 ("A*02:03".toList) ("A203".toList)
      (by decide) (by decide) (by decide) (by decide)).1
  · exact (broad_split_formatting wSt1 ("A*02:03".toList) ("A203".toList)
      (by decide) (by decide) (by decide) (by decide)).2.1 ("A2".toList)
      (by decide) (by decide)
  · exact (broad_split_formatting wSt1 ("A*02:03".toList) ("A203".toList)
      (by decide) (by decide) (by decide) (by decide)).2.2.2.1 ("A2".toList)
      (by decide) (by decide)
  · exact (broad_split_formatting wSt1 ("A*02:01".toList) ("A2".toList)
      (by decide) (by decide) (by decide) (by decide)).2.2.2.2 (by decide)


/-! ### C5: argument validation precedes all conversion logic -/

/-- **C5.** An out-of-range `handle_broad` or `target_format` makes
`convert` fail with an argument error (`ValueError`): the result does not
depend on the loaded state in any way (the same error is produced for
every `ParserState`, so no index lookup or data load can have been
consulted), a bad `handle_broad` is detected even together with a bad
`target_format`, and argument errors are a different constructor of the
error type than every domain error, so a caller can distinguish them. -/
theorem argument_errors_first (st st2 : ParserState) (s : List Char)
    (tf : Option (List Char)) (ex : Bool) (hb : List Char) :
    (hb ≠ "split".toList → hb ≠ "broad".toList → hb ≠ "both".toList →
      convert st s tf ex hb = Except.error (ConvErr.argError ArgErrKind.badHandleBroad)
      ∧ convert st s tf ex hb = convert st2 s tf ex hb)
    ∧ (∀ t, tf = some t → t ≠ "s".toList → t ≠ "m".toList →
      convert st s tf ex hb = Except.error (ConvErr.argError ArgErrKind.badTargetFormat)
      ∨ convert st s tf ex hb = Except.error (ConvErr.argError ArgErrKind.badHandleBroad))
    ∧ (∀ a d, ConvErr.argError a ≠ ConvErr.domainError d) := by
  refine ⟨?_, ?_, ?_⟩
  · intro h1 h2 h3
    constructor
    · unfold convert
      rw [if_pos ⟨h1, h2, h3⟩]
    · unfold convert
      rw [if_pos ⟨h1, h2, h3⟩, if_pos ⟨h1, h2, h3⟩]
  · intro t htf h1 h2
    by_cases hbad : hb ≠ "split".toList ∧ hb ≠ "broad".toList ∧ hb ≠ "both".toList
    · right
      unfold convert
      rw [if_pos hbad]
    · left
      subst htf
      unfold convert
      rw [if_neg hbad]
      have h1a : t ≠ ['s'] := h1
      have h2a : t ≠ ['m'] := h2
      simp [h1a, h2a]
  · intro a d h
    exact ConvErr.noConfusion h

/-- Witness for C5 at concrete bad arguments. -/
theorem argument_errors_first_witness :
    convert wSt1 ("A*02:03".toList) none false ("weird".toList) =
        Except.error (ConvErr.argError ArgErrKind.badHandleBroad)
      ∧ (convert wSt1 ("A*02:03".toList) (some ("x".toList)) false ("split".toList) =
            Except.error (ConvErr.argError ArgErrKind.badTargetFormat)
          ∨ convert wSt1 ("A*02:03".toList) (some ("x".toList)) false ("split".toList) =
            Except.error (ConvErr.argError ArgErrKind.badHandleBroad)) := by
  constructor
  · exact ((argument_errors_first wSt1 wSt1 ("A*02:03".toList) none false
      ("weird".toList)).1 (by decide) (by decide) (by decide)).1
  · exact (argument_errors_first wSt1 wSt1 ("A*02:03".toList) (some ("x".toList)) false
      ("split".toList)).2.1 ("x".toList) rfl (by decide) (by decide)

/-! ### C9: a known serological name under `target_format="s"` is returned unchanged -/

/-- **C9.** Any input that matches the serological pattern and is a key of
the serological-to-molecular index is returned unchanged (identity) by
`convert` with `target_format="s"` — the serological branch of
`_to_serology` validates and echoes the input instead of failing. -/
theorem serological_identity_target_s (st : ParserState) (s : List Char)
    (hser : is_serological s = true) (hkey : (lookupA st.stm s).isSome)
    (ex : Bool) (hb : List Char)
    (hhb : hb = "split".toList ∨ hb = "broad".toList ∨ hb = "both".toList) :
    convert st s (some ("s".toList)) ex hb = Except.ok (ConvOut.sero s) := by
  rw [convert_target_s st s ex hb hhb]
  have hstar : '*' ∉ s := is_serological_no_star hser
  have hv : is_valid_serological_allele st s = true := by
    simp [is_valid_serological_allele, hkey]
  simp [to_serology, hstar, hser, hv]

/-- Witness for C9: the known serological name `A203` is echoed. -/
theorem serological_identity_target_s_witness :
    convert wSt1 ("A203".toList) (some ("s".toList)) false ("split".toList) =
      Except.ok (ConvOut.sero ("A203".toList)) :=
  serological_identity_target_s wSt1 ("A203".toList) (by decide) (by decide)
    false ("split".toList) (Or.inl rfl)

/-! ### C10: KIR classification swallows conversion failures -/

/-- **C10.** `classify_kir_ligand` never propagates a conversion error:
for a serological-format input whose serological-to-molecular conversion
fails, and for an input matching neither the serological pattern nor the
molecular pattern (no `*`), it returns the fixed non-ligand dictionary
(`is_kir_ligand` false, `kir_ligand_type` null, empty receptor list,
null source, and no detail key) instead of raising. -/
theorem kir_classify_swallows_conversion_errors (st : ParserState) (K : KirMap)
    (s : List Char) (bead : Option (List Char)) :
    (('*' ∉ s) → is_serological s = false →
      classify_kir_ligand st K s bead = Except.ok emptyKirResult)
    ∧ (∀ e, is_serological s = true → to_molecular st s false = Except.error e →
      classify_kir_ligand st K s bead = Except.ok emptyKirResult)
    ∧ emptyKirResult =
      { is_kir_ligand := false, kir_ligand_type := none, detail := none,
        receptors := [], source := none } := by
  refine ⟨?_, ?_, rfl⟩
  · intro hns hser
    simp [classify_kir_ligand, hns, hser]
  · intro e hser herr
    have hns : '*' ∉ s := is_serological_no_star hser
    simp [classify_kir_ligand, hns, hser, herr]

/-- Witness for C10: `Z9` matches the serological pattern but is unknown
(conversion fails); `C14x*`-free `C14w` matches neither pattern. -/
theorem kir_classify_swallows_conversion_errors_witness :
    classify_kir_ligand wSt1 [] ("Z9".toList) none = Except.ok emptyKirResult
    ∧ classify_kir_ligand wSt1 [] ("C14w".toList) none = Except.ok emptyKirResult := by
  constructor
  · exact (kir_classify_swallows_conversion_errors wSt1 [] ("Z9".toList) none).2.1
      DomErrKind.unrecognizedSerological (by decide) (by decide)
  · exact (kir_classify_swallows_conversion_errors wSt1 [] ("C14w".toList) none).1
      (by decide) (by decide)

/-! ### C8: version normalization -/

theorem splitOnChar_length (c : Char) (s : List Char) :
    (splitOnChar c s).length = s.count c + 1 := by
  induction s with
  | nil => rfl
  | cons x xs ih =>
    by_cases hx : x = c
    · subst hx
      simp [splitOnChar, List.count_cons, ih]
    · rcases hsp : splitOnChar c xs with _ | ⟨h0, t⟩
      · exact absurd hsp (splitOnChar_ne_nil c xs)
      · have hxc : (x == c) = false := by simp [hx]
        simp [splitOnChar, hx, hsp, List.count_cons, hxc]
        have h2 := ih
        rw [hsp] at h2
        simpa using h2

theorem strStarts_append_self (p q : List Char) : strStarts p (p ++ q) = true := by
  induction p with
  | nil => rfl
  | cons x xs ih => simp [strStarts, ih]

theorem strStarts_iff (p s : List Char) :
    strStarts p s = true ↔ ∃ u, s = p ++ u := by
  constructor
  · intro h
    induction p generalizing s with
    | nil => exact ⟨s, rfl⟩
    | cons x xs ih =>
      cases s with
      | nil => simp [strStarts] at h
      | cons y ys =>
        simp only [strStarts, Bool.and_eq_true, decide_eq_true_eq] at h
        obtain ⟨u, hu⟩ := ih ys h.2
        exact ⟨u, by rw [h.1, hu]; rfl⟩
  · rintro ⟨u, rfl⟩
    exact strStarts_append_self p u

theorem strEnds_iff (t s : List Char) :
    strEnds t s = true ↔ ∃ x, s = x ++ t := by
  unfold strEnds
  rw [strStarts_iff]
  constructor
  · rintro ⟨u, hu⟩
    refine ⟨u.reverse, ?_⟩
    have h2 : s.reverse.reverse = (t.reverse ++ u).reverse := by rw [hu]
    simpa using h2
  · rintro ⟨x, rfl⟩
    exact ⟨x.reverse, by simp⟩

theorem pyIsDigitStr_false_of_dot {s : List Char} (h : '.' ∈ s) :
    pyIsDigitStr s = false := by
  unfold pyIsDigitStr
  have h2 : s.all isDigitC = false := by
    rw [List.all_eq_false]
    exact ⟨'.', h, by decide⟩
  simp [h2]

/-- **C8 counterexample.** The claim maps `"3610"` to
`"3.10.0"` (major digit, then the *last two* digits), but the source uses
`version_str[1:3]` — the second and third digits — giving `"3.61.0"`; and
the unparseable `"abc.0"` is not returned unchanged but with its
trailing `".0"` stripped. -/
theorem normalize_version_counterexample :
    normalize_version ("3610".toList) = "3.61.0".toList
    ∧ "3.61.0".toList ≠ "3.10.0".toList
    ∧ normalize_version ("abc.0".toList) = "abc".toList
    ∧ "abc".toList ≠ "abc.0".toList := by decide

theorem strEnds_no_dot {s : List Char} (h : '.' ∉ s) :
    strEnds (".0".toList) s = false := by
  by_contra hne
  have h1 : strEnds (".0".toList) s = true := by
    revert hne; cases strEnds (".0".toList) s <;> simp
  rw [strEnds_iff] at h1
  obtain ⟨x, rfl⟩ := h1
  exact h (by simp [String.toList])

theorem strEnds_dot0_false {a b : List Char} (hb : '.' ∉ b) (hne : b ≠ ['0']) :
    strEnds (".0".toList) (a ++ '.' :: b) = false := by
  by_contra hq
  have h1 : strEnds (".0".toList) (a ++ '.' :: b) = true := by
    revert hq; cases strEnds (".0".toList) (a ++ '.' :: b) <;> simp
  rw [strEnds_iff] at h1
  obtain ⟨x, hx⟩ := h1
  have hrev : b.reverse ++ '.' :: a.reverse = '0' :: '.' :: x.reverse := by
    have h2 := congrArg List.reverse hx
    simpa [List.reverse_append] using h2
  cases hbr : b.reverse with
  | nil =>
    rw [hbr] at hrev
    simp only [List.nil_append] at hrev
    exact absurd (List.head_eq_of_cons_eq hrev) (by decide)
  | cons c rest =>
    rw [hbr] at hrev
    simp only [List.cons_append] at hrev
    have hc := List.head_eq_of_cons_eq hrev
    have htail := List.tail_eq_of_cons_eq hrev
    cases rest with
    | nil =>
      have hb0 : b = ['0'] := by
        have h3 := congrArg List.reverse hbr
        simpa [hc] using h3
      exact hne hb0
    | cons d rest2 =>
      simp only [List.cons_append] at htail
      have hd := List.head_eq_of_cons_eq htail
      have hdb : d ∈ b := by
        have h4 : d ∈ b.reverse := by rw [hbr]; simp
        simpa using h4
      rw [hd] at hdb
      exact hb hdb

theorem count_dot_mid {a b : List Char} (ha : '.' ∉ a) (hb : '.' ∉ b) :
    (a ++ '.' :: b).count '.' = 1 := by
  have h1 : a.count '.' = 0 := List.count_eq_zero.mpr ha
  have h2 : b.count '.' = 0 := List.count_eq_zero.mpr hb
  simp [List.count_append, List.count_cons, h1, h2]

/-- **C8 (amended).** Full characterization of `_normalize_version`: a
4-digit all-numeric string maps to `{first digit}.{second and third
digits, left-zero-stripped, minimum "0"}.0`; a string with exactly two
dots is returned unchanged; otherwise a trailing `".0"` is first dropped
and the remainder processed: a two-segment remainder gets `".0"`
appended, a one-segment remainder of at most two characters gets
`".0.0"` appended, and any other remainder is returned as-is (so an
unparseable input ending in `".0"` comes back with that suffix
stripped, not unchanged). -/
theorem normalize_version_amended :
    (∀ c0 c1 c2 c3, isDigitC c0 = true → isDigitC c1 = true → isDigitC c2 = true →
      isDigitC c3 = true →
      normalize_version [c0, c1, c2, c3] =
        c0 :: '.' ::
          ((if ([c1, c2].dropWhile (fun c => c = '0')).isEmpty then ['0']
            else [c1, c2].dropWhile (fun c => c = '0')) ++ ".0".toList))
    ∧ (∀ s : List Char, s.count '.' = 2 → normalize_version s = s)
    ∧ (∀ s : List Char, '.' ∉ s → ¬(s.length = 4 ∧ pyIsDigitStr s = true) →
      normalize_version s = if s.length ≤ 2 then s ++ ".0.0".toList else s)
    ∧ (∀ a b : List Char, '.' ∉ a → '.' ∉ b → b ≠ ['0'] →
      normalize_version (a ++ '.' :: b) = a ++ '.' :: (b ++ ".0".toList))
    ∧ (∀ a : List Char, '.' ∉ a →
      normalize_version (a ++ ".0".toList) =
        if a.length ≤ 2 then a ++ ".0.0".toList else a)
    ∧ (∀ s : List Char, 3 ≤ s.count '.' →
      normalize_version s =
        if strEnds (".0".toList) s then s.take (s.length - 2) else s) := by
  have digit_ne_dot : ∀ c : Char, isDigitC c = true → ¬(c = '.') := by
    intro c hc he
    subst he
    simp [isDigitC] at hc
  refine ⟨?_, ?_, ?_, ?_, ?_, ?_⟩
  · intro c0 c1 c2 c3 h0 h1 h2 h3
    have hdot : '.' ∉ [c0, c1, c2, c3] := by
      intro hm
      simp only [List.mem_cons, List.not_mem_nil, or_false] at hm
      rcases hm with hm | hm | hm | hm
      · exact digit_ne_dot c0 h0 hm.symm
      · exact digit_ne_dot c1 h1 hm.symm
      · exact digit_ne_dot c2 h2 hm.symm
      · exact digit_ne_dot c3 h3 hm.symm
    have hd : pyIsDigitStr [c0, c1, c2, c3] = true := by
      simp [pyIsDigitStr, h0, h1, h2, h3]
    unfold normalize_version
    rw [if_neg (fun hand => hdot hand.1), if_pos ⟨rfl, hd⟩]
    simp
  · intro s hc
    have hm : '.' ∈ s := by
      by_contra hnm
      rw [List.count_eq_zero.mpr hnm] at hc
      exact absurd hc (by decide)
    unfold normalize_version
    rw [if_pos ⟨hm, hc⟩]
  · intro s hdot hno4
    have hc2 : ¬('.' ∈ s ∧ s.count '.' = 2) := fun hand => hdot hand.1
    have hE : strEnds (".0".toList) s = false := strEnds_no_dot hdot
    unfold normalize_version
    rw [if_neg hc2, if_neg hno4]
    simp only [hE, Bool.false_eq_true, if_false, splitOnChar_not_mem hdot]
  · intro a b ha hb hne
    have hcount : (a ++ '.' :: b).count '.' = 1 := count_dot_mid ha hb
    have hc2 : ¬('.' ∈ (a ++ '.' :: b) ∧ (a ++ '.' :: b).count '.' = 2) := by
      intro hand
      rw [hcount] at hand
      exact absurd hand.2 (by decide)
    have hdig : pyIsDigitStr (a ++ '.' :: b) = false :=
      pyIsDigitStr_false_of_dot (by simp)
    have hno4 : ¬((a ++ '.' :: b).length = 4 ∧ pyIsDigitStr (a ++ '.' :: b) = true) := by
      intro hand
      rw [hdig] at hand
      exact absurd hand.2 (by decide)
    have hE : strEnds (".0".toList) (a ++ '.' :: b) = false := strEnds_dot0_false hb hne
    unfold normalize_version
    rw [if_neg hc2, if_neg hno4]
    simp only [hE, Bool.false_eq_true, if_false,
      splitOnChar_append_cons b ha, splitOnChar_not_mem hb]
    simp
  · intro a ha
    have hs : a ++ ".0".toList = a ++ '.' :: ['0'] := rfl
    have hcount : (a ++ '.' :: ['0']).count '.' = 1 := count_dot_mid ha (by decide)
    have hc2 : ¬('.' ∈ (a ++ '.' :: ['0']) ∧ (a ++ '.' :: ['0']).count '.' = 2) := by
      intro hand
      rw [hcount] at hand
      exact absurd hand.2 (by decide)
    have hdig : pyIsDigitStr (a ++ '.' :: ['0']) = false :=
      pyIsDigitStr_false_of_dot (by simp)
    have hno4 : ¬((a ++ '.' :: ['0']).length = 4 ∧ pyIsDigitStr (a ++ '.' :: ['0']) = true) := by
      intro hand
      rw [hdig] at hand
      exact absurd hand.2 (by decide)
    have hE : strEnds (".0".toList) (a ++ '.' :: ['0']) = true := by
      rw [strEnds_iff]
      exact ⟨a, rfl⟩
    have htake : (a ++ '.' :: ['0']).take ((a ++ '.' :: ['0']).length - 2) = a := by
      have hlen : (a ++ '.' :: ['0']).length = a.length + 2 := by simp
      rw [hlen]
      simp [List.take_left]
    rw [hs]
    unfold normalize_version
    rw [if_neg hc2, if_neg hno4]
    simp only [hE, if_true, htake, splitOnChar_not_mem ha]
  · intro s hcount
    have hc2 : ¬('.' ∈ s ∧ s.count '.' = 2) := by
      intro hand
      rw [hand.2] at hcount
      exact absurd hcount (by decide)
    have hmem : '.' ∈ s := by
      by_contra hnm
      rw [List.count_eq_zero.mpr hnm] at hcount
      exact absurd hcount (by decide)
    have hdig : pyIsDigitStr s = false := pyIsDigitStr_false_of_dot hmem
    have hno4 : ¬(s.length = 4 ∧ pyIsDigitStr s = true) := by
      intro hand
      rw [hdig] at hand
      exact absurd hand.2 (by decide)
    unfold normalize_version
    rw [if_neg hc2, if_neg hno4]
    cases hE : strEnds (".0".toList) s with
    | false =>
      simp only [Bool.false_eq_true, if_false]
      have hlen : (splitOnChar '.' s).length = s.count '.' + 1 := splitOnChar_length '.' s
      rcases hsp : splitOnChar '.' s with _ | ⟨x1, (_ | ⟨x2, (_ | ⟨x3, t⟩)⟩)⟩
      · exact absurd hsp (splitOnChar_ne_nil '.' s)
      · rw [hsp] at hlen
        simp at hlen
        omega
      · rw [hsp] at hlen
        simp at hlen
        omega
      · rfl
    | true =>
      simp only [if_true]
      rw [strEnds_iff] at hE
      obtain ⟨x, rfl⟩ := hE
      have htake : (x ++ ".0".toList).take ((x ++ ".0".toList).length - 2) = x := by
        have hlen : (x ++ ".0".toList).length = x.length + 2 := by simp
        rw [hlen]
        simp [List.take_left]
      rw [htake]
      have hcx : 2 ≤ x.count '.' := by
        have h5 : (x ++ ".0".toList).count '.' = x.count '.' + 1 := by
          simp [List.count_append]
        omega
      have hlenx : (splitOnChar '.' x).length = x.count '.' + 1 := splitOnChar_length '.' x
      rcases hsp : splitOnChar '.' x with _ | ⟨x1, (_ | ⟨x2, (_ | ⟨x3, t⟩)⟩)⟩
      · exact absurd hsp (splitOnChar_ne_nil '.' x)
      · rw [hsp] at hlenx
        simp at hlenx
        omega
      · rw [hsp] at hlenx
        simp at hlenx
        omega
      · rfl

/-! ### C7: KIR compression lemma kit -/

theorem lookupA_addPair_self (gs : List (List Char × List (List Char × List Char)))
    (fd : List Char) (p : List Char × List Char) :
    lookupA (addPair gs fd p) fd = some (setAdd (lookupD gs fd []) p) := by
  induction gs with
  | nil => simp [addPair, lookupA, lookupD, setAdd]
  | cons g r ih =>
    obtain ⟨k, ms⟩ := g
    by_cases hk : k = fd
    · subst hk
      simp [addPair, lookupA, lookupD]
    · simp [addPair, hk, lookupA, lookupD, ih]

theorem lookupA_addPair_ne (gs : List (List Char × List (List Char × List Char)))
    {fd fd' : List Char} (p : List Char × List Char) (h : fd ≠ fd') :
    lookupA (addPair gs fd p) fd' = lookupA gs fd' := by
  induction gs with
  | nil => simp [addPair, lookupA, h]
  | cons g r ih =>
    obtain ⟨k, ms⟩ := g
    by_cases hk : k = fd
    · subst hk
      simp [addPair, lookupA, h, ih]
    · simp only [addPair, if_neg hk, lookupA]
      by_cases hk2 : k = fd'
      · simp [hk2]
      · simp [hk2, ih]

theorem addPair_keys (gs : List (List Char × List (List Char × List Char)))
    (fd : List Char) (p : List Char × List Char) :
    (addPair gs fd p).map Prod.fst =
      if fd ∈ gs.map Prod.fst then gs.map Prod.fst else gs.map Prod.fst ++ [fd] := by
  induction gs with
  | nil => simp [addPair]
  | cons g r ih =>
    obtain ⟨k, ms⟩ := g
    by_cases hk : k = fd
    · subst hk
      simp [addPair]
    · have hk2 : ¬ (fd = k) := fun he => hk he.symm
      simp only [addPair, if_neg hk, List.map_cons, List.mem_cons]
      rw [ih]
      by_cases hm : fd ∈ r.map Prod.fst
      · simp [hm, hk2]
      · simp [hm, hk2]

theorem addPair_keys_nodup {gs : List (List Char × List (List Char × List Char))}
    (h : (gs.map Prod.fst).Nodup) (fd : List Char) (p : List Char × List Char) :
    ((addPair gs fd p).map Prod.fst).Nodup := by
  rw [addPair_keys]
  by_cases hm : fd ∈ gs.map Prod.fst
  · simpa [hm] using h
  · simp only [hm, if_false]
    exact List.Nodup.append h (List.nodup_singleton fd) (by simpa using hm)

theorem addPair_cons_self (k0 : List Char) (ms0 : List (List Char × List Char))
    (r : List (List Char × List (List Char × List Char))) (p : List Char × List Char) :
    addPair ((k0, ms0) :: r) k0 p = (k0, setAdd ms0 p) :: r := by
  simp [addPair]

theorem addPair_cons_ne {k0 fd : List Char} (ms0 : List (List Char × List Char))
    (r : List (List Char × List (List Char × List Char))) (p : List Char × List Char)
    (h : k0 ≠ fd) :
    addPair ((k0, ms0) :: r) fd p = (k0, ms0) :: addPair r fd p := by
  simp [addPair, h]

theorem mem_addPair_sound {P : List Char → (List Char × List Char) → Prop} :
    ∀ (gs : List (List Char × List (List Char × List Char))) (fd : List Char)
      (p : List Char × List Char),
      (∀ k ms, (k, ms) ∈ gs → ∀ q ∈ ms, P k q) → P fd p →
      ∀ k ms, (k, ms) ∈ addPair gs fd p → ∀ q ∈ ms, P k q
  | [], fd, p, _, hp => by
    intro k ms hms q hq
    simp only [addPair, List.mem_singleton, Prod.mk.injEq] at hms
    obtain ⟨h1, h2⟩ := hms
    rw [h2] at hq
    simp only [List.mem_singleton] at hq
    rw [h1, hq]
    exact hp
  | (k0, ms0) :: r, fd, p, hgs, hp => by
    intro k ms hms q hq
    by_cases hk : k0 = fd
    · subst hk
      rw [addPair_cons_self] at hms
      rcases List.mem_cons.mp hms with h1 | h1
      · rw [Prod.mk.injEq] at h1
        obtain ⟨h2, h3⟩ := h1
        rw [h3] at hq
        rw [h2]
        rcases mem_of_mem_setAdd hq with h4 | h4
        · exact hgs k0 ms0 (List.mem_cons_self _ _) q h4
        · rw [h4]
          exact hp
      · exact hgs k ms (List.mem_cons_of_mem _ h1) q hq
    · rw [addPair_cons_ne ms0 r p hk] at hms
      rcases List.mem_cons.mp hms with h1 | h1
      · rw [Prod.mk.injEq] at h1
        obtain ⟨h2, h3⟩ := h1
        rw [h3] at hq
        rw [h2]
        exact hgs k0 ms0 (List.mem_cons_self _ _) q hq
      · exact mem_addPair_sound r fd p
          (fun k1 ms1 hm1 => hgs k1 ms1 (List.mem_cons_of_mem _ hm1)) hp k ms h1 q hq

theorem setAdd_ne_nil_of_ne_nil {ms : List (List Char × List Char)}
    (p : List Char × List Char) : setAdd ms p ≠ [] := by
  unfold setAdd
  split
  · rename_i hmem
    intro he
    rw [he] at hmem
    simp at hmem
  · simp

theorem mem_addPair_nonempty :
    ∀ (gs : List (List Char × List (List Char × List Char))) (fd : List Char)
      (p : List Char × List Char),
      (∀ k ms, (k, ms) ∈ gs → ms ≠ []) →
      ∀ k ms, (k, ms) ∈ addPair gs fd p → ms ≠ []
  | [], fd, p, _ => by
    intro k ms hms
    simp only [addPair, List.mem_singleton, Prod.mk.injEq] at hms
    obtain ⟨h1, h2⟩ := hms
    rw [h2]
    simp
  | (k0, ms0) :: r, fd, p, hgs => by
    intro k ms hms
    by_cases hk : k0 = fd
    · subst hk
      rw [addPair_cons_self] at hms
      rcases List.mem_cons.mp hms with h1 | h1
      · rw [Prod.mk.injEq] at h1
        rw [h1.2]
        exact setAdd_ne_nil_of_ne_nil p
      · exact hgs k ms (List.mem_cons_of_mem _ h1)
    · rw [addPair_cons_ne ms0 r p hk] at hms
      rcases List.mem_cons.mp hms with h1 | h1
      · rw [Prod.mk.injEq] at h1
        rw [h1.2]
        exact hgs k0 ms0 (List.mem_cons_self _ _)
      · exact mem_addPair_nonempty r fd p
          (fun k1 ms1 hm1 => hgs k1 ms1 (List.mem_cons_of_mem _ hm1)) k ms h1

theorem lookupA_mem {b : Type} {gs : List (List Char × b)} {k : List Char} {v : b}
    (h : lookupA gs k = some v) : (k, v) ∈ gs := by
  induction gs with
  | nil => simp [lookupA] at h
  | cons g r ih =>
    obtain ⟨k0, v0⟩ := g
    by_cases hk : k0 = k
    · subst hk
      simp only [lookupA, eq_self_iff_true, if_true, Option.some.injEq] at h
      subst h
      exact List.mem_cons_self _ _
    · simp only [lookupA, if_neg hk] at h
      exact List.mem_cons_of_mem _ (ih h)

theorem mem_lookupA_of_nodup {b : Type} :
    ∀ (gs : List (List Char × b)), (gs.map Prod.fst).Nodup →
      ∀ (k : List Char) (v : b), (k, v) ∈ gs → lookupA gs k = some v
  | [], _, k, v, h => by simp at h
  | (k0, v0) :: r, hn, k, v, h => by
    simp only [List.map_cons, List.nodup_cons] at hn
    rcases List.mem_cons.mp h with h1 | h1
    · rw [Prod.mk.injEq] at h1
      obtain ⟨h2, h3⟩ := h1
      subst h2
      subst h3
      simp [lookupA]
    · have hk : k0 ≠ k := by
        intro he
        subst he
        exact hn.1 (List.mem_map_of_mem Prod.fst h1)
      simp only [lookupA, if_neg hk]
      exact mem_lookupA_of_nodup r hn.2 k v h1

theorem lookupA_updateMany_not_mem {b : Type} :
    ∀ (kvs : List (List Char × b)) (m : List (List Char × b)) (k : List Char),
      k ∉ kvs.map Prod.fst → lookupA (updateMany m kvs) k = lookupA m k
  | [], m, k, _ => rfl
  | (p1, p2) :: r, m, k, h => by
    simp only [List.map_cons, List.mem_cons, not_or] at h
    unfold updateMany
    simp only [List.foldl_cons]
    rw [show (r.foldl (fun acc q => updateA acc q.1 q.2) (updateA m p1 p2)) =
        updateMany (updateA m p1 p2) r from rfl]
    rw [lookupA_updateMany_not_mem r (updateA m p1 p2) k h.2]
    exact lookupA_updateA_ne m p2 (fun he => h.1 he.symm)

theorem lookupA_updateMany_mem {b : Type} :
    ∀ (kvs : List (List Char × b)) (m : List (List Char × b)),
      (kvs.map Prod.fst).Nodup → ∀ (k : List Char) (v : b), (k, v) ∈ kvs →
      lookupA (updateMany m kvs) k = some v
  | [], m, _, k, v, h => by simp at h
  | (p1, p2) :: r, m, hn, k, v, h => by
    simp only [List.map_cons, List.nodup_cons] at hn
    unfold updateMany
    simp only [List.foldl_cons]
    rw [show (r.foldl (fun acc q => updateA acc q.1 q.2) (updateA m p1 p2)) =
        updateMany (updateA m p1 p2) r from rfl]
    rcases List.mem_cons.mp h with h1 | h1
    · rw [Prod.mk.injEq] at h1
      obtain ⟨h2, h3⟩ := h1
      subst h2
      subst h3
      rw [lookupA_updateMany_not_mem r _ k hn.1]
      exact lookupA_updateA_self m k v
    · exact lookupA_updateMany_mem r (updateA m p1 p2) hn.2 k v h1

theorem dedup_const {l : List (List Char)} {v : List Char} (hne : l ≠ [])
    (h : ∀ x ∈ l, x = v) : l.dedup = [v] := by
  induction l with
  | nil => exact absurd rfl hne
  | cons x r ih =>
    have hx : x = v := h x (List.mem_cons_self _ _)
    subst hx
    cases hr : r with
    | nil => simp
    | cons y t =>
      have hrne : r ≠ [] := by rw [hr]; simp
      have hmem : x ∈ r := by
        have hy : y = x := by
          have := h y (by rw [hr]; exact List.mem_cons_of_mem _ (List.mem_cons_self _ _))
          rw [this, h x (List.mem_cons_self _ _)]
        rw [hr, hy]
        exact List.mem_cons_self _ _
      rw [← hr, List.dedup_cons_of_mem hmem]
      exact ih hrne (fun z hz => h z (List.mem_cons_of_mem _ hz))

theorem foldl_fdStep_sound {P : List Char → (List Char × List Char) → Prop} :
    ∀ (m : KirMap) (gs : List (List Char × List (List Char × List Char))),
      (∀ k ms, (k, ms) ∈ gs → ∀ q ∈ ms, P k q) →
      (∀ a v, (a, some v) ∈ m → 2 ≤ (splitOnChar ':' a).length →
        P (fourDigitOf a) (a, v)) →
      ∀ k ms, (k, ms) ∈ m.foldl fdStep gs → ∀ q ∈ ms, P k q
  | [], gs, hgs, _ => hgs
  | (a, vo) :: rest, gs, hgs, hm => by
    simp only [List.foldl_cons]
    refine foldl_fdStep_sound rest (fdStep gs (a, vo)) ?_
      (fun a2 v2 h2 hp2 => hm a2 v2 (List.mem_cons_of_mem _ h2) hp2)
    cases vo with
    | none => exact hgs
    | some v =>
      unfold fdStep
      simp only
      split
      · exact mem_addPair_sound gs (fourDigitOf a) (a, v) hgs
          (hm a v (List.mem_cons_self _ _) (by assumption))
      · exact hgs

theorem foldl_fdStep_nonempty :
    ∀ (m : KirMap) (gs : List (List Char × List (List Char × List Char))),
      (∀ k ms, (k, ms) ∈ gs → ms ≠ []) →
      ∀ k ms, (k, ms) ∈ m.foldl fdStep gs → ms ≠ []
  | [], gs, hgs => hgs
  | (a, vo) :: rest, gs, hgs => by
    simp only [List.foldl_cons]
    refine foldl_fdStep_nonempty rest (fdStep gs (a, vo)) ?_
    cases vo with
    | none => exact hgs
    | some v =>
      unfold fdStep
      simp only
      split
      · exact mem_addPair_nonempty gs (fourDigitOf a) (a, v) hgs
      · exact hgs

theorem foldl_fdStep_keys_nodup :
    ∀ (m : KirMap) (gs : List (List Char × List (List Char × List Char))),
      (gs.map Prod.fst).Nodup → ((m.foldl fdStep gs).map Prod.fst).Nodup
  | [], gs, hgs => hgs
  | (a, vo) :: rest, gs, hgs => by
    simp only [List.foldl_cons]
    refine foldl_fdStep_keys_nodup rest (fdStep gs (a, vo)) ?_
    cases vo with
    | none => exact hgs
    | some v =>
      unfold fdStep
      simp only
      split
      · exact addPair_keys_nodup hgs (fourDigitOf a) (a, v)
      · exact hgs

theorem foldl_fdStep_preserve :
    ∀ (m : KirMap) (gs : List (List Char × List (List Char × List Char)))
      (fd : List Char) (q : List Char × List Char) (ms : List (List Char × List Char)),
      lookupA gs fd = some ms → q ∈ ms →
      ∃ ms2, lookupA (m.foldl fdStep gs) fd = some ms2 ∧ q ∈ ms2
  | [], gs, fd, q, ms, hl, hq => ⟨ms, hl, hq⟩
  | (a, vo) :: rest, gs, fd, q, ms, hl, hq => by
    simp only [List.foldl_cons]
    cases vo with
    | none => exact foldl_fdStep_preserve rest gs fd q ms hl hq
    | some v =>
      unfold fdStep
      simp only
      split
      · by_cases hfd : fourDigitOf a = fd
        · subst hfd
          refine foldl_fdStep_preserve rest _ _ q _ (lookupA_addPair_self gs _ (a, v)) ?_
          rw [lookupD, hl]
          exact mem_setAdd_of_mem _ hq
        · refine foldl_fdStep_preserve rest _ _ q ms ?_ hq
          rw [lookupA_addPair_ne gs (a, v) hfd]
          exact hl
      · exact foldl_fdStep_preserve rest gs fd q ms hl hq

theorem foldl_fdStep_lookup :
    ∀ (m : KirMap) (gs : List (List Char × List (List Char × List Char)))
      (a : List Char) (v : List Char), (a, some v) ∈ m →
      2 ≤ (splitOnChar ':' a).length →
      ∃ ms, lookupA (m.foldl fdStep gs) (fourDigitOf a) = some ms ∧ (a, v) ∈ ms
  | [], gs, a, v, hm, _ => by simp at hm
  | (b, vo) :: rest, gs, a, v, hm, hp => by
    simp only [List.foldl_cons]
    rcases List.mem_cons.mp hm with h1 | h1
    · rw [Prod.mk.injEq] at h1
      obtain ⟨h2, h3⟩ := h1
      subst h2
      subst h3
      have hstep : lookupA (fdStep gs (a, some v)) (fourDigitOf a)
          = some (setAdd (lookupD gs (fourDigitOf a) []) (a, v)) := by
        unfold fdStep
        simp only [if_pos hp]
        exact lookupA_addPair_self gs _ (a, v)
      exact foldl_fdStep_preserve rest _ _ (a, v) _ hstep (mem_setAdd_self _ _)
    · exact foldl_fdStep_lookup rest (fdStep gs (b, vo)) a v h1 hp

theorem headI_mem_splitOnChar (c : Char) (s : List Char) :
    (splitOnChar c s).headI ∈ splitOnChar c s := by
  rcases hsp : splitOnChar c s with _ | ⟨h0, t⟩
  · exact absurd hsp (splitOnChar_ne_nil c s)
  · simp

theorem foldl_twoStep_keys :
    ∀ (m : KirMap) (gs : List (List Char × List (List Char × List Char))),
      (∀ k, k ∈ gs.map Prod.fst → ':' ∉ k) →
      ∀ k, k ∈ (m.foldl twoStep gs).map Prod.fst → ':' ∉ k
  | [], gs, hgs => hgs
  | (a, vo) :: rest, gs, hgs => by
    simp only [List.foldl_cons]
    refine foldl_twoStep_keys rest (twoStep gs (a, vo)) ?_
    cases vo with
    | none => exact hgs
    | some v =>
      unfold twoStep
      simp only
      split
      · intro k hk
        rw [addPair_keys] at hk
        by_cases hmem : (splitOnChar ':' a).headI ∈ gs.map Prod.fst
        · rw [if_pos hmem] at hk
          exact hgs k hk
        · rw [if_neg hmem] at hk
          rcases List.mem_append.mp hk with h1 | h1
          · exact hgs k h1
          · simp only [List.mem_singleton] at h1
            rw [h1]
            exact splitOnChar_not_mem_of_mem (headI_mem_splitOnChar ':' a)
      · exact hgs

/-- **C7.** `_compress_to_four_digit` groups the non-null-valued alleles
that have at least two colon fields by 2-field truncation.  If every
group agrees on the ligand value, the result maps each group's 2-field
form to that common value (no error); if any group disagrees, the whole
load aborts with an inconsistency error whose data lists, for the
conflicting group, every allele of the group together with its value
(and no partial result is produced). -/
theorem kir_compression_consistency (m : KirMap) :
    ((∀ a b va vb, (a, some va) ∈ m → (b, some vb) ∈ m →
        2 ≤ (splitOnChar ':' a).length → 2 ≤ (splitOnChar ':' b).length →
        fourDigitOf a = fourDigitOf b → va = vb) →
      ∃ r, compress_to_four_digit m = Except.ok r ∧
        ∀ a va, (a, some va) ∈ m → 2 ≤ (splitOnChar ':' a).length →
          lookupA r (fourDigitOf a) = some (some va))
    ∧ (∀ a b va vb, (a, some va) ∈ m → (b, some vb) ∈ m →
        2 ≤ (splitOnChar ':' a).length → 2 ≤ (splitOnChar ':' b).length →
        fourDigitOf a = fourDigitOf b → va ≠ vb →
      ∃ e, compress_to_four_digit m = Except.error e ∧
        ∃ ms, (fourDigitOf a, ms) ∈ e ∧ (a, va) ∈ ms ∧ (b, vb) ∈ ms ∧
          ∀ c vc, (c, some vc) ∈ m → 2 ≤ (splitOnChar ':' c).length →
            fourDigitOf c = fourDigitOf a → (c, vc) ∈ ms) := by
  have hsound : ∀ k ms, (k, ms) ∈ fourDigitGroups m → ∀ q ∈ ms,
      (q.1, some q.2) ∈ m ∧ 2 ≤ (splitOnChar ':' q.1).length ∧ fourDigitOf q.1 = k := by
    refine foldl_fdStep_sound m [] (by simp) ?_
    intro a v hmem hlen
    exact ⟨hmem, hlen, rfl⟩
  have hnodup : ((fourDigitGroups m).map Prod.fst).Nodup :=
    foldl_fdStep_keys_nodup m [] (by simp)
  have hne : ∀ k ms, (k, ms) ∈ fourDigitGroups m → ms ≠ [] :=
    foldl_fdStep_nonempty m [] (by simp)
  constructor
  · intro hagree
    have hall1 : ∀ g ∈ fourDigitGroups m, ¬((groupVals g.2).length ≠ 1) := by
      intro g hg
      obtain ⟨k, ms⟩ := g
      have hms := hne k ms hg
      obtain ⟨q0, hq0m⟩ := List.exists_mem_of_ne_nil ms hms
      have hq0 := hsound k ms hg q0 hq0m
      have hval : ∀ x ∈ ms.map Prod.snd, x = q0.2 := by
        intro x hx
        obtain ⟨q, hqm, hqx⟩ := List.mem_map.mp hx
        have hq := hsound k ms hg q hqm
        rw [← hqx]
        exact hagree q.1 q0.1 q.2 q0.2 hq.1 hq0.1 hq.2.1 hq0.2.1
          (by rw [hq.2.2, hq0.2.2])
      have hmapne : ms.map Prod.snd ≠ [] :=
        fun he => hms (List.map_eq_nil_iff.mp he)
      have hdd : (ms.map Prod.snd).dedup = [q0.2] := dedup_const hmapne hval
      simp only [groupVals, hdd]
      simp
    have hbad : (fourDigitGroups m).filter
        (fun g => (groupVals g.2).length ≠ 1) = [] := by
      rw [List.filter_eq_nil_iff]
      intro g hg
      simp only [decide_eq_true_eq]
      exact hall1 g hg
    refine ⟨updateMany (updateMany m ((fourDigitGroups m).map
        (fun g => (g.1, some (groupVals g.2).headI))))
        (((m.foldl twoStep []).filter (fun g => (groupVals g.2).length = 1)).map
          (fun g => (g.1, some (groupVals g.2).headI))), ?_, ?_⟩
    · simp only [compress_to_four_digit, hbad, List.isEmpty_nil, if_true]
    · intro a va hma hpa
      obtain ⟨ms, hlook, hmem⟩ := foldl_fdStep_lookup m [] a va hma hpa
      have hgmem : (fourDigitOf a, ms) ∈ fourDigitGroups m := lookupA_mem hlook
      have hval : ∀ x ∈ ms.map Prod.snd, x = va := by
        intro x hx
        obtain ⟨q, hqm, hqx⟩ := List.mem_map.mp hx
        have hq := hsound _ ms hgmem q hqm
        rw [← hqx]
        exact hagree q.1 a q.2 va hq.1 hma hq.2.1 hpa hq.2.2
      have hmapne : ms.map Prod.snd ≠ [] :=
        fun he => (hne _ ms hgmem) (List.map_eq_nil_iff.mp he)
      have hdd : groupVals ms = [va] := by
        unfold groupVals
        exact dedup_const hmapne hval
      have hcomp : (fourDigitOf a, some va) ∈
          (fourDigitGroups m).map (fun g => (g.1, some (groupVals g.2).headI)) := by
        refine List.mem_map.mpr ⟨(fourDigitOf a, ms), hgmem, ?_⟩
        simp [hdd]
      have hkeys : (((fourDigitGroups m).map
          (fun g => (g.1, some (groupVals g.2).headI))).map Prod.fst).Nodup := by
        rw [List.map_map]
        exact hnodup
      have hfdcolon : ':' ∈ fourDigitOf a := by
        unfold fourDigitOf
        rcases hsp : splitOnChar ':' a with _ | ⟨q0, (_ | ⟨q1, t⟩)⟩
        · exact absurd hsp (splitOnChar_ne_nil ':' a)
        · rw [hsp] at hpa
          simp at hpa
        · simp
      have hnotA : fourDigitOf a ∉ ((((m.foldl twoStep []).filter
          (fun g => (groupVals g.2).length = 1)).map
          (fun g => (g.1, some (groupVals g.2).headI))).map Prod.fst) := by
        intro hmem2
        have h2 : fourDigitOf a ∈ (m.foldl twoStep []).map Prod.fst := by
          rw [List.map_map] at hmem2
          obtain ⟨g, hgm, hgx⟩ := List.mem_map.mp hmem2
          exact hgx ▸ List.mem_map_of_mem Prod.fst (List.mem_of_mem_filter hgm)
        exact foldl_twoStep_keys m [] (by simp) (fourDigitOf a) h2 hfdcolon
      rw [lookupA_updateMany_not_mem _ _ _ hnotA]
      exact lookupA_updateMany_mem _ _ hkeys _ _ hcomp
  · intro a b va vb hma hmb hpa hpb heq hvne
    obtain ⟨ms, hlook, hmem⟩ := foldl_fdStep_lookup m [] a va hma hpa
    obtain ⟨ms2, hlook2, hmem2⟩ := foldl_fdStep_lookup m [] b vb hmb hpb
    have h12 : some ms = some ms2 := by
      rw [← hlook, ← hlook2, heq]
    have hms2 : ms2 = ms := by
      injection h12 with h
      exact h.symm
    rw [hms2] at hmem2
    clear hlook2 h12 hms2
    have hlen : (groupVals ms).length ≠ 1 := by
      intro hlen1
      obtain ⟨x, hx⟩ := List.length_eq_one.mp hlen1
      have hva : va ∈ groupVals ms := by
        unfold groupVals
        exact List.mem_dedup.mpr (List.mem_map_of_mem Prod.snd hmem)
      have hvb : vb ∈ groupVals ms := by
        unfold groupVals
        exact List.mem_dedup.mpr (List.mem_map_of_mem Prod.snd hmem2)
      rw [hx] at hva hvb
      simp only [List.mem_singleton] at hva hvb
      exact hvne (hva.trans hvb.symm)
    have hbadmem : (fourDigitOf a, ms) ∈ (fourDigitGroups m).filter
        (fun g => (groupVals g.2).length ≠ 1) := by
      refine List.mem_filter.mpr ⟨lookupA_mem hlook, ?_⟩
      simp only [decide_eq_true_eq]
      exact hlen
    have hbadne : ((fourDigitGroups m).filter
        (fun g => (groupVals g.2).length ≠ 1)).isEmpty = false := by
      rcases hb : (fourDigitGroups m).filter (fun g => (groupVals g.2).length ≠ 1) with
        _ | ⟨x, t⟩
      · rw [hb] at hbadmem
        simp at hbadmem
      · rw [hb]
        rfl
    refine ⟨_, ?_, ms, hbadmem, hmem, hmem2, ?_⟩
    · simp only [compress_to_four_digit, hbadne, Bool.false_eq_true, if_false]
    · intro c vc hmc hpc heqc
      obtain ⟨ms3, hlook3, hmem3⟩ := foldl_fdStep_lookup m [] c vc hmc hpc
      have h13 : some ms = some ms3 := by
        rw [← hlook, ← hlook3, heqc]
      have hms3 : ms3 = ms := by
        injection h13 with h
        exact h.symm
      rw [← hms3]
      exact hmem3

/-- Concrete KIR maps for the C7 witness: the spec's own scenario with
`B*27:05:02` and `B*27:05:09`. -/
def kmW1 : KirMap :=
  [("B*27:05:02".toList, some ("Bw4".toList)), ("B*27:05:09".toList, some ("Bw4".toList))]

def kmW2 : KirMap :=
  [("B*27:05:02".toList, some ("Bw4".toList)), ("B*27:05:09".toList, some ("Bw6".toList))]

/-- Witness for C7 at the spec's concrete scenario. -/
theorem kir_compression_consistency_witness :
    (∃ r, compress_to_four_digit kmW1 = Except.ok r ∧
      lookupA r ("B*27:05".toList) = some (some ("Bw4".toList)))
    ∧ (∃ e, compress_to_four_digit kmW2 = Except.error e ∧
      ∃ ms, ("B*27:05".toList, ms) ∈ e ∧ ("B*27:05:02".toList, "Bw4".toList) ∈ ms ∧
        ("B*27:05:09".toList, "Bw6".toList) ∈ ms) := by
  constructor
  · have hagree : ∀ a b va vb, (a, some va) ∈ kmW1 → (b, some vb) ∈ kmW1 →
        2 ≤ (splitOnChar ':' a).length → 2 ≤ (splitOnChar ':' b).length →
        fourDigitOf a = fourDigitOf b → va = vb := by
      intro a b va vb ha hb _ _ _
      simp only [kmW1, List.mem_cons, List.not_mem_nil, or_false, Prod.mk.injEq,
        Option.some.injEq] at ha hb
      rcases ha with ⟨ha1, ha2⟩ | ⟨ha1, ha2⟩ <;> rcases hb with ⟨hb1, hb2⟩ | ⟨hb1, hb2⟩ <;>
        rw [ha2, hb2]
    obtain ⟨r, hok, hl⟩ := (kir_compression_consistency kmW1).1 hagree
    refine ⟨r, hok, ?_⟩
    exact hl ("B*27:05:02".toList) ("Bw4".toList) (by decide) (by decide)
  · obtain ⟨e, herr, ms, hms, h1, h2, h3⟩ := (kir_compression_consistency kmW2).2
      ("B*27:05:02".toList) ("B*27:05:09".toList) ("Bw4".toList) ("Bw6".toList)
      (by decide) (by decide) (by decide) (by decide) (by decide) (by decide)
    exact ⟨e, herr, ms, hms, h1, h2⟩

/-- Witness for the amended C8, applying each case of the
characterization at a concrete input. -/
theorem normalize_version_amended_witness :
    normalize_version ("3610".toList) = "3.61.0".toList
    ∧ normalize_version ("3.61".toList) = "3.61.0".toList
    ∧ normalize_version ("12".toList) = "12.0.0".toList
    ∧ normalize_version ("xyz.0".toList) = "xyz".toList
    ∧ normalize_version ("1.2.3".toList) = "1.2.3".toList := by
  refine ⟨?_, ?_, ?_, ?_, ?_⟩
  · exact normalize_version_amended.1 '3' '6' '1' '0'
      (by decide) (by decide) (by decide) (by decide)
  · exact normalize_version_amended.2.2.2.1 ("3".toList) ("61".toList)
      (by decide) (by decide) (by decide)
  · exact (normalize_version_amended.2.2.1 ("12".toList) (by decide)
      (by decide)).trans (by decide)
  · exact (normalize_version_amended.2.2.2.2.1 ("xyz".toList) (by decide)).trans
      (by decide)
  · exact normalize_version_amended.2.1 ("1.2.3".toList) (by decide)

/-! ### C2 and C4 counterexample states -/

/-- State loaded from a file whose locus-C `"?"` line has a one-component
allele suffix: the Python local `sero_num` keeps the value `"3"` of the
previous line, so `C*14` is filed under `Cw3`, not `Cw14`. -/
def stC4 : ParserState :=
  match loadRelDnaSer [("C*;01:02;3;;".toList), ("C*;14;?;;".toList)] with
  | Except.ok st => st
  | Except.error _ => ⟨[], [], [], [], []⟩

/-- **C4 counterexample.** For the data line `C*;14;?;;` (locus C, field
`"?"`, allele suffix `14` with no colon), the claim predicts serological
name `Cw14`; the source instead reuses the stale `sero_num` from the
previous line (`3`), records `C*14` under `Cw3`, and creates no `Cw14`
entry.  (With no previous assignment the load even aborts with
`UnboundLocalError`.) -/
theorem c_locus_stale_counterexample :
    loadRelDnaSer [("C*;01:02;3;;".toList), ("C*;14;?;;".toList)] = Except.ok stC4
    ∧ lookupA stC4.mts ("C*14".toList) = some ("3".toList)
    ∧ ("C*14".toList) ∈ lookupD stC4.stm ("Cw3".toList) []
    ∧ lookupA stC4.stm ("Cw14".toList) = none
    ∧ loadRelDnaSer [("C*;14;?;;".toList)] = Except.error () := by decide

/-- State loaded from a file that assigns the same 2-field allele
`A*02:01` two different serological numbers. -/
def stC2 : ParserState :=
  match loadRelDnaSer
      [("A*;01:01;1;;".toList), ("A*;02:01;1;;".toList), ("A*;02:01;2;;".toList)] with
  | Except.ok st => st
  | Except.error _ => ⟨[], [], [], [], []⟩

/-- **C2 counterexample.** On this loadable file, `A*01:01` converts to
`A1`, which is not a split; converting `A1` back to molecular yields
`[A*01:01, A*02:01]`, but `A*02:01` converts to `A2 ≠ A1`, so the round
trip is not stable as claimed. -/
theorem roundtrip_counterexample :
    loadRelDnaSer
        [("A*;01:01;1;;".toList), ("A*;02:01;1;;".toList), ("A*;02:01;2;;".toList)]
      = Except.ok stC2
    ∧ to_serology stC2 ("A*01:01".toList) ("split".toList) = Except.ok ("A1".toList)
    ∧ lookupA stC2.splitToBroad ("A1".toList) = none
    ∧ to_molecular stC2 ("A1".toList) false =
        Except.ok [("A*01:01".toList), ("A*02:01".toList)]
    ∧ to_serology stC2 ("A*02:01".toList) ("split".toList) = Except.ok ("A2".toList)
    ∧ ("A2".toList) ≠ ("A1".toList) := by decide

/-! ### Shape lemmas for `to_2field` and `extract_locus` -/

theorem count_pos_of_mem {c : Char} {s : List Char} (h : c ∈ s) : 1 ≤ s.count c := by
  by_contra hlt
  have h0 : s.count c = 0 := by omega
  exact (List.count_eq_zero.mp h0) h

theorem splitOnChar_two_of_mem {c : Char} {s : List Char} (h : c ∈ s) :
    ∃ p0 p1 t, splitOnChar c s = p0 :: p1 :: t := by
  have hlen := splitOnChar_length c s
  have hc := count_pos_of_mem h
  rcases hsp : splitOnChar c s with _ | ⟨p0, (_ | ⟨p1, t⟩)⟩
  · exact absurd hsp (splitOnChar_ne_nil c s)
  · rw [hsp] at hlen
    simp at hlen
    omega
  · exact ⟨p0, p1, t, rfl⟩

/-- If the split has a second component, the string decomposes at its
first separator: `s = p0 ++ c :: r` with `splitOnChar c r = p1 :: t`. -/
theorem splitOnChar_decomp {c : Char} {s p0 p1 : List Char} {t : List (List Char)}
    (hsp : splitOnChar c s = p0 :: p1 :: t) :
    ∃ r, s = p0 ++ c :: r ∧ splitOnChar c r = p1 :: t ∧ c ∉ p0 := by
  obtain ⟨h, t2, hsp2, hrest⟩ := splitOnChar_head_append c s
  rw [hsp] at hsp2
  injection hsp2 with h1 h2
  subst h1
  subst h2
  rcases hrest with ⟨ht, hs⟩ | ⟨r, hs⟩
  · exact absurd ht (List.cons_ne_nil p1 t)
  · have hp0 : c ∉ p0 := by
      have hm : p0 ∈ splitOnChar c s := by rw [hsp]; exact List.mem_cons_self _ _
      exact splitOnChar_not_mem_of_mem hm
    refine ⟨r, hs, ?_, hp0⟩
    have h3 := splitOnChar_append_cons r hp0
    rw [← hs, hsp] at h3
    injection h3 with h4 h5
    exact h5.symm

theorem to_2field_of_not {s : List Char} (h : ¬('*' ∈ s ∧ ':' ∈ s)) :
    to_2field s = s := by
  unfold to_2field
  rw [if_neg h]

theorem to_2field_eq {s : List Char} (hstar : '*' ∈ s) (hcolon : ':' ∈ s) :
    ∃ p0 p1 t r, splitOnChar ':' s = p0 :: p1 :: t ∧ to_2field s = p0 ++ ':' :: p1
      ∧ s = p0 ++ ':' :: r ∧ splitOnChar ':' r = p1 :: t ∧ ':' ∉ p0 ∧ ':' ∉ p1 := by
  obtain ⟨p0, p1, t, hsp⟩ := splitOnChar_two_of_mem hcolon
  obtain ⟨r, hs, hspr, hp0⟩ := splitOnChar_decomp hsp
  have hp1 : ':' ∉ p1 :=
    splitOnChar_not_mem_of_mem (hsp ▸ List.mem_cons_of_mem p0 (List.mem_cons_self p1 t))
  refine ⟨p0, p1, t, r, hsp, ?_, hs, hspr, hp0, hp1⟩
  unfold to_2field
  rw [if_pos ⟨hstar, hcolon⟩, hsp]

theorem to_2field_idem (s : List Char) : to_2field (to_2field s) = to_2field s := by
  by_cases h : '*' ∈ s ∧ ':' ∈ s
  · obtain ⟨p0, p1, t, r, hsp, h2f, hs, hspr, hp0, hp1⟩ := to_2field_eq h.1 h.2
    rw [h2f]
    by_cases hstar : '*' ∈ p0 ++ ':' :: p1
    · have hcolon : ':' ∈ p0 ++ ':' :: p1 := by simp
      unfold to_2field
      rw [if_pos ⟨hstar, hcolon⟩]
      rw [splitOnChar_append_cons (p1 : List Char) hp0, splitOnChar_not_mem hp1]
    · exact to_2field_of_not (fun hand => hstar hand.1)
  · rw [to_2field_of_not h, to_2field_of_not h]

theorem upper_not_digit {c : Char} (h1 : isUpperC c = true) (h2 : isDigitC c = true) :
    False := by
  simp only [isUpperC, isDigitC, decide_eq_true_eq] at h1 h2
  have h3 := le_trans h1.1 h2.2
  exact absurd h3 (by decide)

theorem span_all_append {p : Char → Bool} :
    ∀ (u v : List Char), (∀ c ∈ u, p c = true) →
      (v = [] ∨ ∃ c t, v = c :: t ∧ p c = false) →
      (u ++ v).takeWhile p = u ∧ (u ++ v).dropWhile p = v
  | [], v, _, hv => by
    rcases hv with rfl | ⟨c, t, rfl, hc⟩
    · simp
    · simp [List.takeWhile_cons, List.dropWhile_cons, hc]
  | x :: u2, v, hu, hv => by
    have hx : p x = true := hu x (List.mem_cons_self _ _)
    have ih := span_all_append u2 v (fun c hc => hu c (List.mem_cons_of_mem _ hc)) hv
    simp only [List.cons_append, List.takeWhile_cons, List.dropWhile_cons, hx, if_true]
    exact ⟨by rw [ih.1], by rw [ih.2]⟩

theorem extract_locus_build {u d r : List Char} (hune : u ≠ [])
    (hu : ∀ c ∈ u, isUpperC c = true) (hd : ∀ c ∈ d, isDigitC c = true) :
    extract_locus (u ++ d ++ '*' :: r) = some (u ++ d) := by
  have hstep1 : (u ++ (d ++ '*' :: r)).takeWhile isUpperC = u
      ∧ (u ++ (d ++ '*' :: r)).dropWhile isUpperC = d ++ '*' :: r := by
    refine span_all_append u (d ++ '*' :: r) hu ?_
    right
    cases d with
    | nil => exact ⟨'*', r, rfl, by decide⟩
    | cons c0 d2 =>
      refine ⟨c0, d2 ++ '*' :: r, rfl, ?_⟩
      by_contra hup
      have hup2 : isUpperC c0 = true := by
        revert hup; cases isUpperC c0 <;> simp
      exact upper_not_digit hup2 (hd c0 (List.mem_cons_self _ _))
  have hstep2 : (d ++ '*' :: r).takeWhile isDigitC = d
      ∧ (d ++ '*' :: r).dropWhile isDigitC = '*' :: r :=
    span_all_append d ('*' :: r) hd (Or.inr ⟨'*', r, rfl, by decide⟩)
  have hue : u.isEmpty = false := by
    cases u with
    | nil => exact absurd rfl hune
    | cons a l => rfl
  simp only [extract_locus, List.append_assoc, hstep1.1, hstep1.2, hstep2.1, hstep2.2,
    hue, Bool.false_eq_true, if_false]

theorem extract_locus_elim {s L : List Char} (h : extract_locus s = some L) :
    ∃ u d r, s = u ++ d ++ '*' :: r ∧ L = u ++ d ∧ u ≠ []
      ∧ (∀ c ∈ u, isUpperC c = true) ∧ (∀ c ∈ d, isDigitC c = true) := by
  simp only [extract_locus] at h
  by_cases hue : (s.takeWhile isUpperC).isEmpty
  · rw [if_pos hue] at h
    exact absurd h (by simp)
  · rw [if_neg hue] at h
    split at h
    · rename_i tail heq
      simp only [Option.some.injEq] at h
      refine ⟨s.takeWhile isUpperC, (s.dropWhile isUpperC).takeWhile isDigitC, tail,
        ?_, h.symm, ?_, ?_, ?_⟩
      · rw [List.append_assoc, ← heq, List.takeWhile_append_dropWhile,
          List.takeWhile_append_dropWhile]
      · intro he
        rw [he] at hue
        exact hue rfl
      · exact fun c hc => List.mem_takeWhile_imp hc
      · exact fun c hc => List.mem_takeWhile_imp hc
    · exact absurd h (by simp)

theorem first_sep_decomp {c : Char} :
    ∀ (x y p0 rest : List Char), c ∉ x → c ∉ p0 →
      x ++ y = p0 ++ c :: rest → ∃ z, p0 = x ++ z ∧ y = z ++ c :: rest
  | [], y, p0, rest, _, _, h => ⟨p0, rfl, by rw [List.nil_append] at h; rw [h]⟩
  | a :: x2, y, p0, rest, hx, hp0, h => by
    cases p0 with
    | nil =>
      simp only [List.cons_append, List.nil_append] at h
      injection h with h1 h2
      exact absurd (h1 ▸ List.mem_cons_self a x2) hx
    | cons b p2 =>
      simp only [List.cons_append] at h
      injection h with h1 h2
      obtain ⟨z, hz1, hz2⟩ := first_sep_decomp x2 y p2 rest
        (fun hm => hx (List.mem_cons_of_mem _ hm))
        (fun hm => hp0 (List.mem_cons_of_mem _ hm)) h2
      exact ⟨z, by rw [hz1, h1, List.cons_append], hz2⟩

theorem extract_locus_to_2field {s L : List Char} (h : extract_locus s = some L) :
    extract_locus (to_2field s) = some L := by
  obtain ⟨u, d, r, hs, hL, hune, hu, hd⟩ := extract_locus_elim h
  by_cases hc : ':' ∈ s
  · have hstar : '*' ∈ s := by rw [hs]; simp
    obtain ⟨p0, p1, t, r2, hsp, h2f, hsdec, hspr, hp0, hp1⟩ := to_2field_eq hstar hc
    rw [h2f]
    have hxny : (u ++ d ++ ['*']) ++ r = p0 ++ ':' :: r2 := by
      rw [← hsdec, hs]
      simp
    have hnx : ':' ∉ u ++ d ++ ['*'] := by
      intro hm
      rcases List.mem_append.mp hm with hm2 | hm2
      · rcases List.mem_append.mp hm2 with hm3 | hm3
        · exact absurd (hu ':' hm3) (by decide)
        · exact absurd (hd ':' hm3) (by decide)
      · simp at hm2
    obtain ⟨z, hz1, hz2⟩ := first_sep_decomp (u ++ d ++ ['*']) r p0 r2 hnx hp0 hxny
    rw [hz1]
    have hre : (u ++ d ++ ['*']) ++ z ++ ':' :: p1 = u ++ d ++ '*' :: (z ++ ':' :: p1) := by
      simp
    rw [hre, extract_locus_build hune hu hd, hL]
  · rw [to_2field_of_not (fun hand => hc hand.2)]
    exact h

/-! ### Invariants of the `rel_dna_ser` load -/

/-- Shape of every key of the serological-to-molecular index: either a
`Cw`-prefixed name (locus C branch), or `{locus}{num}` with a well-formed
non-C locus and a non-empty serological number that is not `"0"`. -/
def KeyOK (R : List Char) : Prop :=
  (∃ t, R = 'C' :: 'w' :: t)
  ∨ (∃ u d num, R = u ++ d ++ num ∧ u ≠ [] ∧ (∀ c ∈ u, isUpperC c = true)
      ∧ (∀ c ∈ d, isDigitC c = true) ∧ u ++ d ≠ ['C'] ∧ num ≠ [] ∧ num ≠ ['0'])

/-- Provenance of every allele stored in a serological index entry. -/
def EntryOK (ad : List (List Char × List (List Char))) (R a : List Char) : Prop :=
  ∃ locus full num, full ∈ lookupD ad locus [] ∧ a = to_2field full ∧
    extract_locus full = some locus ∧ R = mkSeroName locus num

/-- The combined invariant of the `_load_rel_dna_ser` accumulator. -/
def AccInv (acc : DnaAcc) : Prop :=
  (∀ R, (lookupA acc.stm R).isSome → KeyOK R)
  ∧ (∀ R l, lookupA acc.stm R = some l → ∀ a ∈ l, EntryOK acc.alleleData R a)
  ∧ (∀ a num, lookupA acc.mts a = some num → ∃ locus l, extract_locus a = some locus ∧
      lookupA acc.stm (mkSeroName locus num) = some l ∧ a ∈ l)

theorem lookupD_setAdd_mono {ad : List (List Char × List (List Char))}
    {k x : List Char} (k2 x2 : List Char) (h : x ∈ lookupD ad k []) :
    x ∈ lookupD (updateA ad k2 (setAdd (lookupD ad k2 []) x2)) k [] := by
  by_cases hk : k2 = k
  · subst hk
    unfold lookupD
    rw [lookupA_updateA_self]
    exact mem_setAdd_of_mem x2 h
  · unfold lookupD
    rw [lookupA_updateA_ne _ _ hk]
    exact h

theorem EntryOK_mono {ad : List (List Char × List (List Char))} {R a : List Char}
    (k2 x2 : List Char) (h : EntryOK ad R a) :
    EntryOK (updateA ad k2 (setAdd (lookupD ad k2 []) x2)) R a := by
  obtain ⟨locus, full, num, h1, h2, h3, h4⟩ := h
  exact ⟨locus, full, num, lookupD_setAdd_mono k2 x2 h1, h2, h3, h4⟩

/-- Recording one allele under one serological name preserves the
accumulator invariant. -/
theorem AccInv_record {acc : DnaAcc} (hinv : AccInv acc) {locus full num : List Char}
    (hfull : extract_locus full = some locus) (hkey : KeyOK (mkSeroName locus num)) :
    AccInv (recordSero
      { acc with alleleData :=
          (updateA acc.alleleData locus (setAdd (lookupD acc.alleleData locus []) full)) }
      (to_2field full) num (mkSeroName locus num)) := by
  obtain ⟨hK, hS, hM⟩ := hinv
  refine ⟨?_, ?_, ?_⟩
  · intro R hR
    simp only [recordSero] at hR
    by_cases hname : mkSeroName locus num = R
    · rw [← hname]
      exact hkey
    · rw [lookupA_updateA_ne _ _ hname] at hR
      exact hK R hR
  · intro R l hl a ha
    simp only [recordSero] at hl ⊢
    by_cases hname : mkSeroName locus num = R
    · subst hname
      rw [lookupA_updateA_self] at hl
      injection hl with hl2
      rw [← hl2] at ha
      rcases mem_of_mem_setAdd ha with h1 | h1
      · have h2 : ∀ a2 ∈ lookupD acc.stm (mkSeroName locus num) [], 
            EntryOK acc.alleleData (mkSeroName locus num) a2 := by
          intro a2 ha2
          unfold lookupD at ha2
          rcases hll : lookupA acc.stm (mkSeroName locus num) with _ | l0
          · rw [hll] at ha2
            simp at ha2
          · rw [hll] at ha2
            exact hS _ l0 hll a2 ha2
        exact EntryOK_mono locus full (h2 a h1)
      · rw [h1]
        refine ⟨locus, full, num, ?_, rfl, hfull, rfl⟩
        unfold lookupD
        rw [lookupA_updateA_self]
        exact mem_setAdd_self _ _
    · rw [lookupA_updateA_ne _ _ hname] at hl
      exact EntryOK_mono locus full (hS R l hl a ha)
  · intro a num2 hl
    simp only [recordSero] at hl ⊢
    by_cases ha : to_2field full = a
    · rw [← ha] at hl ⊢
      rw [lookupA_updateA_self] at hl
      injection hl with hl2
      rw [← hl2]
      refine ⟨locus, _, extract_locus_to_2field hfull, lookupA_updateA_self _ _ _, ?_⟩
      exact mem_setAdd_self _ _
    · rw [lookupA_updateA_ne _ _ ha] at hl
      obtain ⟨locus2, l, hex, hlook, hmem⟩ := hM a num2 hl
      by_cases hname : mkSeroName locus num = mkSeroName locus2 num2
      · refine ⟨locus2,
          setAdd (lookupD acc.stm (mkSeroName locus num) []) (to_2field full), hex, ?_, ?_⟩
        · rw [← hname, lookupA_updateA_self]
        · rw [← hname] at hlook
          unfold lookupD
          rw [hlook]
          exact mem_setAdd_of_mem _ hmem
      · refine ⟨locus2, l, hex, ?_, hmem⟩
        rw [lookupA_updateA_ne _ _ hname]
        exact hlook

theorem AccInv_ad {acc : DnaAcc} (hinv : AccInv acc) (locus full : List Char) :
    AccInv { acc with alleleData :=
      (updateA acc.alleleData locus (setAdd (lookupD acc.alleleData locus []) full)) } := by
  obtain ⟨hK, hS, hM⟩ := hinv
  exact ⟨hK, fun R l hl a ha => EntryOK_mono locus full (hS R l hl a ha), hM⟩

/-- One line of `_load_rel_dna_ser` preserves the accumulator invariant. -/
theorem dnaStep_inv {acc : DnaAcc} {line : List Char} {acc2 : DnaAcc}
    (h : dnaStep acc line = Except.ok acc2) (hinv : AccInv acc) : AccInv acc2 := by
  simp only [dnaStep] at h
  split at h
  case isFalse =>
    injection h with h2
    rw [← h2]
    exact hinv
  case isTrue =>
    split at h
    case h_2 =>
      injection h with h2
      rw [← h2]
      exact hinv
    case h_1 =>
      rename_i p0 p1 p2 rest hsplit
      split at h
      case isFalse =>
        injection h with h2
        rw [← h2]
        exact hinv
      case isTrue =>
        split at h
        case h_2 =>
          injection h with h2
          rw [← h2]
          exact hinv
        case h_1 =>
          rename_i locus hloc
          split at h
          case isFalse =>
            injection h with h2
            rw [← h2]
            exact AccInv_ad hinv locus (p0 ++ p1)
          case isTrue hp2 =>
            split at h
            case isTrue hlocC =>
              split at h
              case h_2 => cases h
              case h_1 =>
                rename_i num hnum
                injection h with h2
                rw [← h2]
                have hk : KeyOK (mkSeroName locus num) := by
                  left
                  refine ⟨num, ?_⟩
                  rw [hlocC]
                  simp [mkSeroName]
                have hrec := AccInv_record hinv hloc hk
                rw [hlocC] at hrec ⊢
                have hmk : mkSeroName ['C'] num = 'C' :: 'w' :: num := by
                  simp [mkSeroName]
                rw [hmk] at hrec
                exact hrec
            case isFalse hlocC =>
              split at h
              case isFalse =>
                injection h with h2
                rw [← h2]
                exact AccInv_ad hinv locus (p0 ++ p1)
              case isTrue hp2q =>
                injection h with h2
                rw [← h2]
                have hk : KeyOK (mkSeroName locus p2) := by
                  right
                  obtain ⟨u, d, r, hsdec, hLdec, hune, hu, hd⟩ := extract_locus_elim hloc
                  refine ⟨u, d, p2, ?_, hune, hu, hd, ?_, hp2.1, hp2.2⟩
                  · rw [mkSeroName, if_neg hlocC, hLdec, List.append_assoc]
                  · rw [← hLdec]
                    exact hlocC
                have hrec := AccInv_record hinv hloc hk
                have hmk : mkSeroName locus p2 = locus ++ p2 := by
                  rw [mkSeroName, if_neg hlocC]
                rw [hmk] at hrec
                exact hrec

theorem dnaLoop_inv :
    ∀ (lines : List (List Char)) (acc acc2 : DnaAcc),
      dnaLoop acc lines = Except.ok acc2 → AccInv acc → AccInv acc2
  | [], acc, acc2, h, hinv => by
    injection h with h2
    rw [← h2]
    exact hinv
  | line :: rest, acc, acc2, h, hinv => by
    unfold dnaLoop at h
    rcases hstep : dnaStep acc line with _ | acc1
    · rw [hstep] at h
      cases h
    · rw [hstep] at h
      exact dnaLoop_inv rest acc1 acc2 h (dnaStep_inv hstep hinv)

theorem AccInv_init : AccInv DnaAcc.init := by
  refine ⟨?_, ?_, ?_⟩
  · intro R hR
    simp [DnaAcc.init, lookupA] at hR
  · intro R l hl
    simp [DnaAcc.init, lookupA] at hl
  · intro a num hl
    simp [DnaAcc.init, lookupA] at hl

/-- The load invariant at the level of the final `ParserState`. -/
def StInv (st : ParserState) : Prop :=
  (∀ R, (lookupA st.stm R).isSome → KeyOK R)
  ∧ (∀ R l, lookupA st.stm R = some l → ∀ a ∈ l, EntryOK st.alleleData R a)
  ∧ (∀ a num, lookupA st.mts a = some num → ∃ locus l, extract_locus a = some locus ∧
      lookupA st.stm (mkSeroName locus num) = some l ∧ a ∈ l)

theorem lookupA_finalize :
    ∀ (m : List (List Char × List (List Char))) (k : List Char),
      lookupA (m.map (fun p => (p.1, List.insertionSort StrR (List.dedup p.2)))) k
        = (lookupA m k).map (fun l => List.insertionSort StrR (List.dedup l))
  | [], k => rfl
  | (k0, v0) :: r, k => by
    by_cases hk : k0 = k
    · subst hk
      simp [lookupA]
    · simp only [List.map_cons, lookupA, if_neg hk]
      exact lookupA_finalize r k

theorem mem_sortDedup {a : List Char} {l : List (List Char)} :
    a ∈ List.insertionSort StrR (List.dedup l) ↔ a ∈ l :=
  ((List.perm_insertionSort StrR (List.dedup l)).mem_iff).trans List.mem_dedup

theorem finalize_inv {acc : DnaAcc} (h : AccInv acc) : StInv (finalizeDna acc) := by
  obtain ⟨hK, hS, hM⟩ := h
  refine ⟨?_, ?_, ?_⟩
  · intro R hR
    simp only [finalizeDna] at hR
    rw [lookupA_finalize] at hR
    apply hK
    rcases hl : lookupA acc.stm R with _ | l0
    · rw [hl] at hR
      simp at hR
    · rfl
  · intro R l hl a ha
    simp only [finalizeDna] at hl ⊢
    rw [lookupA_finalize] at hl
    rcases hl0 : lookupA acc.stm R with _ | l0
    · rw [hl0] at hl
      simp at hl
    · rw [hl0] at hl
      simp only [Option.map] at hl
      injection hl with hl2
      rw [← hl2] at ha
      exact hS R l0 hl0 a (mem_sortDedup.mp ha)
  · intro a num hl
    simp only [finalizeDna] at hl ⊢
    obtain ⟨locus, l0, hex, hlook, hmem⟩ := hM a num hl
    refine ⟨locus, List.insertionSort StrR (List.dedup l0), hex, ?_, ?_⟩
    · rw [lookupA_finalize, hlook]
      rfl
    · exact mem_sortDedup.mpr hmem

theorem serStep_core (st : ParserState) (line : List Char) :
    (serStep st line).stm = st.stm ∧ (serStep st line).mts = st.mts
      ∧ (serStep st line).alleleData = st.alleleData := by
  simp only [serStep]
  repeat' split
  all_goals exact ⟨rfl, rfl, rfl⟩

theorem loadRelSerSer_core :
    ∀ (ls : List (List Char)) (st : ParserState),
      (loadRelSerSer st ls).stm = st.stm ∧ (loadRelSerSer st ls).mts = st.mts
        ∧ (loadRelSerSer st ls).alleleData = st.alleleData
  | [], st => ⟨rfl, rfl, rfl⟩
  | line :: rest, st => by
    have h1 := serStep_core st line
    have h2 := loadRelSerSer_core rest (serStep st line)
    unfold loadRelSerSer at h2 ⊢
    simp only [List.foldl_cons]
    rw [h2.1, h2.2.1, h2.2.2, h1.1, h1.2.1, h1.2.2]
    exact ⟨rfl, rfl, rfl⟩

theorem StInv_fields_eq {st st2 : ParserState} (h : StInv st)
    (h1 : st2.stm = st.stm) (h2 : st2.mts = st.mts) (h3 : st2.alleleData = st.alleleData) :
    StInv st2 := by
  obtain ⟨hK, hS, hM⟩ := h
  rw [StInv, h1, h2, h3]
  exact ⟨hK, hS, hM⟩

/-- Any state produced by `_load_data` satisfies the load invariant. -/
theorem loadData_inv {dna : List (List Char)} {ser : Option (List (List Char))}
    {st : ParserState} (h : loadData dna ser = Except.ok st) : StInv st := by
  unfold loadData at h
  rcases hload : loadRelDnaSer dna with _ | st0
  · rw [hload] at h
    cases h
  · rw [hload] at h
    injection h with h2
    have hst0 : StInv st0 := by
      unfold loadRelDnaSer at hload
      rcases hloop : dnaLoop DnaAcc.init dna with _ | acc
      · rw [hloop] at hload
        cases hload
      · rw [hloop] at hload
        injection hload with h3
        rw [← h3]
        exact finalize_inv (dnaLoop_inv dna DnaAcc.init acc hloop AccInv_init)
    rw [← h2]
    cases ser with
    | none => exact hst0
    | some ls =>
      have hc := loadRelSerSer_core ls st0
      exact StInv_fields_eq hst0 hc.1 hc.2.1 hc.2.2

/-! ### C6: bare C-locus names are always rejected -/

theorem keyOK_bareC_false {ds : List Char} (hall : ∀ c ∈ ds, isDigitC c = true)
    (hsplit : ∀ i, 1 ≤ i → i < ds.length → ds.drop i = ['0']) :
    ¬ KeyOK ('C' :: ds) := by
  rintro (⟨t, ht⟩ | ⟨u, d, num, heq, hune, hu, hd, hne1, hnume, hnum0⟩)
  · injection ht with h1 h2
    have hw := hall 'w' (by rw [h2]; exact List.mem_cons_self _ _)
    exact absurd hw (by decide)
  · cases u with
    | nil => exact hune rfl
    | cons c0 u2 =>
      rw [List.cons_append, List.cons_append] at heq
      injection heq with hc heq2
      cases u2 with
      | cons c1 u3 =>
        have hc1d : isDigitC c1 = true := by
          apply hall c1
          rw [heq2]
          simp
        exact upper_not_digit (hu c1 (by simp)) hc1d
      | nil =>
        simp only [List.nil_append] at heq2
        cases d with
        | nil =>
          apply hne1
          rw [hc]
          rfl
        | cons e0 d2 =>
          have hdrop : ds.drop (e0 :: d2).length = num := by
            rw [heq2]
            exact List.drop_left (e0 :: d2) num
          have hlen : (e0 :: d2).length < ds.length := by
            have h5 : ds.length = (e0 :: d2).length + num.length := by
              rw [heq2]
              simp
              omega
            have h6 : 0 < num.length := List.length_pos.mpr hnume
            omega
          have h7 := hsplit (e0 :: d2).length (by simp) hlen
          rw [hdrop] at h7
          exact hnum0 h7

theorem keyOK_single_digit_false {c : Char} (hc : isDigitC c = true) :
    ¬ KeyOK ['C', c] := by
  refine keyOK_bareC_false ?_ ?_
  · intro x hx
    simp only [List.mem_singleton] at hx
    rw [hx]
    exact hc
  · intro i h1 h2
    simp only [List.length_singleton] at h2
    omega

theorem keyOK_C10_false : ¬ KeyOK ('C' :: '1' :: '0' :: []) := by
  refine keyOK_bareC_false ?_ ?_
  · intro x hx
    rcases List.mem_cons.mp hx with h | h
    · rw [h]; rfl
    · rcases List.mem_cons.mp h with h2 | h2
      · rw [h2]; rfl
      · simp at h2
  · intro i h1 h2
    simp only [List.length_cons, List.length_nil] at h2
    have h3 : i = 1 := by omega
    rw [h3]
    rfl

/-- **C6.** For every parser state produced by loading any pair of data
files, every serological key for locus C carries the `Cw` prefix, so
converting any bare `"C1"`..`"C10"` (auto-detected as serological) fails
with an unrecognized-serological-allele error. -/
theorem bare_c_names_rejected {dna : List (List Char)} {ser : Option (List (List Char))}
    {st : ParserState} (h : loadData dna ser = Except.ok st) :
    ∀ k ∈ [("C1".toList), ("C2".toList), ("C3".toList), ("C4".toList), ("C5".toList),
      ("C6".toList), ("C7".toList), ("C8".toList), ("C9".toList), ("C10".toList)],
      convert st k none false ("split".toList) =
        Except.error (ConvErr.domainError DomErrKind.unrecognizedSerological) := by
  have hinv := loadData_inv h
  intro k hk
  simp only [List.mem_cons, List.not_mem_nil, or_false] at hk
  have hnokey : ¬ KeyOK k := by
    rcases hk with hk | hk | hk | hk | hk | hk | hk | hk | hk | hk
    all_goals try (rw [hk]; exact keyOK_single_digit_false (by decide))
    rw [hk]
    exact keyOK_C10_false
  have hser : is_serological k = true := by
    rcases hk with hk | hk | hk | hk | hk | hk | hk | hk | hk | hk
    all_goals (rw [hk]; decide)
  have hval : is_valid_serological_allele st k = false := by
    rcases hv : lookupA st.stm k with _ | l
    · simp [is_valid_serological_allele, hv]
    · exact absurd (hinv.1 k (by rw [hv]; rfl)) hnokey
  rw [convert_auto st k false _ (Or.inl rfl), if_pos hser]
  simp [to_molecular, hser, hval]

/-- Concrete state for the C6 witness. -/
def wSt6 : ParserState :=
  match loadData [("C*;01:02;1;;".toList), ("A*;01:01;1;;".toList)]
      (some [("A;2;;203/210".toList)]) with
  | Except.ok st => st
  | Except.error _ => ⟨[], [], [], [], []⟩

/-- Witness for C6 on a concrete pair of loaded files. -/
theorem bare_c_names_rejected_witness :
    loadData [("C*;01:02;1;;".toList), ("A*;01:01;1;;".toList)]
        (some [("A;2;;203/210".toList)]) = Except.ok wSt6
      ∧ convert wSt6 ("C1".toList) none false ("split".toList) =
          Except.error (ConvErr.domainError DomErrKind.unrecognizedSerological) := by
  have hload : loadData [("C*;01:02;1;;".toList), ("A*;01:01;1;;".toList)]
      (some [("A;2;;203/210".toList)]) = Except.ok wSt6 := rfl
  exact ⟨hload, bare_c_names_rejected hload ("C1".toList) (by simp)⟩

/-! ### C2 (amended): round-trip stability on consistent data -/

theorem star_mem_of_extract {s L : List Char} (h : extract_locus s = some L) :
    '*' ∈ s := by
  obtain ⟨u, d, r, hs, _, _, _, _⟩ := extract_locus_elim h
  rw [hs]
  simp

theorem is_serological_ne_nil {s : List Char} (h : is_serological s = true) : s ≠ [] := by
  intro he
  rw [he] at h
  exact absurd h (by decide)

theorem get_m2s_elim {st : ParserState} {x R : List Char}
    (h : get_molecular_to_serological st x false = some R) :
    ∃ num locus, lookupA st.mts (to_2field x) = some num ∧ num.isEmpty = false ∧
      extract_locus x = some locus ∧ R = mkSeroName locus num := by
  unfold get_molecular_to_serological at h
  split at h
  case h_2 => cases h
  case h_1 num hlk =>
    split at h
    case isTrue => cases h
    case isFalse hne =>
      split at h
      case h_2 => cases h
      case h_1 locus hex =>
        simp only [Bool.false_eq_true, if_false, Option.some.injEq] at h
        refine ⟨num, locus, hlk, ?_, hex, h.symm⟩
        simpa using hne

theorem to_serology_elim {st : ParserState} {m hb R : List Char} (hstar : '*' ∈ m)
    (h : to_serology st m hb = Except.ok R) :
    is_valid_molecular_allele st m = true ∧ ∃ sero, resolveSero st m = some sero ∧
      sero.isEmpty = false ∧ R = format_serological_result st sero hb := by
  unfold to_serology at h
  rw [if_pos hstar] at h
  split at h
  case isTrue => cases h
  case isFalse hv =>
    have hv2 : is_valid_molecular_allele st m = true := by
      simpa using hv
    split at h
    case h_2 => cases h
    case h_1 sero hres =>
      split at h
      case isTrue => cases h
      case isFalse hse =>
        injection h with h2
        refine ⟨hv2, sero, hres, ?_, h2.symm⟩
        simpa using hse

/-- The cross-index consistency invariant of the spec's data model: every
allele filed under serological name `R` resolves back to `R`.  It is
equivalent to the file assigning a single serological name per 2-field
allele; the unamended claim fails without it (see the C2
counterexample). -/
def ConsistentState (st : ParserState) : Prop :=
  ∀ p ∈ st.stm, ∀ a ∈ p.2, get_molecular_to_serological st a false = some p.1

instance (st : ParserState) : Decidable (ConsistentState st) :=
  inferInstanceAs (Decidable
    (∀ p ∈ st.stm, ∀ a ∈ p.2, get_molecular_to_serological st a false = some p.1))

/-- **C2 (amended).** For a loaded state whose indices are consistent
(each allele filed under `R` resolves to `R` — the spec's own data-model
invariant, violated only by files assigning one 2-field allele two
serological numbers), every molecular allele `m` that converts to a
non-split serological name `R` round-trips: `R` converts to a non-empty
molecular list, and every allele in it converts back to `R`. -/
theorem roundtrip_stability {dna : List (List Char)} {ser : Option (List (List Char))}
    {st : ParserState} (hload : loadData dna ser = Except.ok st)
    (hcons : ConsistentState st) (m R : List Char) (hstar : '*' ∈ m)
    (hres : to_serology st m ("split".toList) = Except.ok R)
    (hserR : is_serological R = true)
    (_hnotsplit : lookupA st.splitToBroad R = none) :
    ∃ L, to_molecular st R false = Except.ok L ∧ L ≠ [] ∧
      ∀ a ∈ L, to_serology st a ("split".toList) = Except.ok R := by
  obtain ⟨hK, hS, hM⟩ := loadData_inv hload
  obtain ⟨hval, sero, hsero, hsne, hfmt⟩ := to_serology_elim hstar hres
  have hfmt2 : R = sero := by
    rw [hfmt]
    unfold format_serological_result
    rw [if_pos rfl]
  subst hfmt2
  have hRget : ∃ x, get_molecular_to_serological st x false = some R
      ∧ to_2field x = to_2field m := by
    unfold resolveSero at hsero
    by_cases ht : pyTruthy (get_molecular_to_serological st m false)
    · rw [if_pos ht] at hsero
      exact ⟨m, hsero, rfl⟩
    · rw [if_neg ht] at hsero
      exact ⟨to_2field m, hsero, to_2field_idem m⟩
  obtain ⟨x, hx, hx2f⟩ := hRget
  obtain ⟨num, locus, hlkm, hnume, hexx, hRname⟩ := get_m2s_elim hx
  obtain ⟨locus2, l, hex2, hlkstm, hmem⟩ := hM (to_2field x) num hlkm
  have hloceq : locus2 = locus := by
    have h3 := extract_locus_to_2field hexx
    rw [h3] at hex2
    injection hex2 with h4
    exact h4.symm
  rw [hloceq, ← hRname] at hlkstm
  have hmem2 : to_2field m ∈ l := by
    rw [← hx2f]
    exact hmem
  have hraw : get_serological_mapping st R false = l := by
    unfold get_serological_mapping lookupD
    rw [hlkstm]
    rfl
  have hlne : l ≠ [] := List.ne_nil_of_mem hmem2
  have hentry : ∀ a ∈ l, EntryOK st.alleleData R a := hS R l hlkstm
  have h2fid : ∀ a ∈ l, to_2field a = a := by
    intro a ha
    obtain ⟨la, full, na, hfm, ha2f, hexf, hRn⟩ := hentry a ha
    rw [ha2f]
    exact to_2field_idem full
  refine ⟨l.map to_2field, ?_, ?_, ?_⟩
  · unfold to_molecular
    rw [if_pos hserR]
    have hv2 : is_valid_serological_allele st R = true := by
      unfold is_valid_serological_allele
      rw [hlkstm]
      rfl
    rw [hv2]
    simp only [Bool.not_true, Bool.false_eq_true, if_false]
    rw [hraw]
    have hle : l.isEmpty = false := by
      cases l with
      | nil => exact absurd rfl hlne
      | cons q t => rfl
    simp only [hle, Bool.false_eq_true, if_false]
  · intro he
    rw [List.map_eq_nil_iff] at he
    exact hlne he
  · intro a ha
    have hmapl : l.map to_2field = l := by
      have h5 : l.map to_2field = l.map id := List.map_congr_left h2fid
      rw [h5, List.map_id]
    rw [hmapl] at ha
    obtain ⟨la, full, na, hfm, ha2f, hexf, hRn⟩ := hentry a ha
    have hexa : extract_locus a = some la := by
      rw [ha2f]
      exact extract_locus_to_2field hexf
    have hstara : '*' ∈ a := star_mem_of_extract hexa
    have hvala : is_valid_molecular_allele st a = true := by
      have hany : (lookupD st.alleleData la []).any
          (fun b => decide (to_2field b = to_2field a)) = true := by
        rw [List.any_eq_true]
        refine ⟨full, hfm, ?_⟩
        rw [ha2f, to_2field_idem]
        simp
      simp only [is_valid_molecular_allele, hexa]
      rw [if_neg (not_not_intro hstara)]
      simp only [Bool.or_eq_true]
      right
      exact hany
    have hgeta : get_molecular_to_serological st a false = some R :=
      hcons (R, l) (lookupA_mem hlkstm) a ha
    unfold to_serology
    rw [if_pos hstara, hvala]
    simp only [Bool.not_true, Bool.false_eq_true, if_false]
    have hresa : resolveSero st a = some R := by
      unfold resolveSero
      rw [hgeta]
      have ht : pyTruthy (some R) = true := by
        simp [pyTruthy, hsne]
      rw [if_pos ht]
    simp only [hresa, hsne, Bool.false_eq_true, if_false]
    unfold format_serological_result
    rw [if_pos rfl]

/-- Witness for the amended C2 on a concrete consistent load. -/
theorem roundtrip_stability_witness :
    ∃ L, to_molecular wSt1 ("A2".toList) false = Except.ok L ∧ L ≠ [] ∧
      ∀ a ∈ L, to_serology wSt1 a ("split".toList) = Except.ok ("A2".toList) := by
  have hload : loadData ["A*;02:03;203;;".toList, "A*;02:01;2;;".toList]
      (some ["A;2;;203/210".toList]) = Except.ok wSt1 := rfl
  exact roundtrip_stability hload (by decide) ("A*02:01".toList) ("A2".toList)
    (by decide) (by decide) (by decide) (by decide)

/-! ### C4 (amended): locus-C line recording -/

/-- **C4 (amended).** For a data line `p0;p1;p2;...` of the
molecular/serological file whose locus is `C` and whose serological field
`p2` is non-empty and not `"0"`: if `p2` is a literal (not `"?"`) it is
authoritative and the 2-field allele is recorded under `Cw{p2}` in both
indices; if `p2 = "?"` *and the allele suffix has at least two
colon-separated components*, the first component is used and the allele
is recorded under `Cw{first}`.  (Without the two-component proviso the
claim fails: the source leaves `sero_num` holding its value from an
earlier line — see the C4 counterexample.) -/
theorem c_locus_line_recording (acc : DnaAcc) (p0 p1 p2 rest : List Char)
    (h0 : ';' ∉ p0) (h1 : ';' ∉ p1) (h2 : ';' ∉ p2)
    (hp0 : p0 ≠ []) (hp1 : p1 ≠ [])
    (hline : pyStrip (p0 ++ ';' :: p1 ++ ';' :: p2 ++ ';' :: rest)
      = p0 ++ ';' :: p1 ++ ';' :: p2 ++ ';' :: rest)
    (hhash : p0.head? ≠ some '#')
    (hloc : extract_locus (p0 ++ p1) = some ['C'])
    (hnum : p2 ≠ [] ∧ p2 ≠ ['0']) :
    (∀ a0 a1 t, p2 = ['?'] → splitOnChar ':' p1 = a0 :: a1 :: t →
      ∃ acc2, dnaStep acc (p0 ++ ';' :: p1 ++ ';' :: p2 ++ ';' :: rest) = Except.ok acc2
        ∧ lookupA acc2.mts (to_2field (p0 ++ p1)) = some a0
        ∧ to_2field (p0 ++ p1) ∈ lookupD acc2.stm ('C' :: 'w' :: a0) [])
    ∧ (p2 ≠ ['?'] →
      ∃ acc2, dnaStep acc (p0 ++ ';' :: p1 ++ ';' :: p2 ++ ';' :: rest) = Except.ok acc2
        ∧ lookupA acc2.mts (to_2field (p0 ++ p1)) = some p2
        ∧ to_2field (p0 ++ p1) ∈ lookupD acc2.stm ('C' :: 'w' :: p2) []) := by
  have hsplit : splitOnChar ';' (p0 ++ ';' :: p1 ++ ';' :: p2 ++ ';' :: rest)
      = p0 :: p1 :: p2 :: splitOnChar ';' rest := by
    simp only [List.append_assoc, List.cons_append]
    rw [splitOnChar_append_cons _ h0, splitOnChar_append_cons _ h1,
      splitOnChar_append_cons _ h2]
  have hne : p0 ++ ';' :: p1 ++ ';' :: p2 ++ ';' :: rest ≠ [] := by
    cases p0 with
    | nil => exact absurd rfl hp0
    | cons c t => simp
  have hhead : (p0 ++ ';' :: p1 ++ ';' :: p2 ++ ';' :: rest).head? ≠ some '#' := by
    cases p0 with
    | nil => exact absurd rfl hp0
    | cons c t => simpa using hhash
  constructor
  · intro a0 a1 t hq hsp1
    subst hq
    have heq : dnaStep acc (p0 ++ ';' :: p1 ++ ';' :: ['?'] ++ ';' :: rest)
        = Except.ok { recordSero
            { acc with alleleData := (updateA acc.alleleData ['C']
                (setAdd (lookupD acc.alleleData ['C'] []) (p0 ++ p1))) }
            (to_2field (p0 ++ p1)) a0 ('C' :: 'w' :: a0) with stale := (some a0) } := by
      simp only [dnaStep, hline, hsplit, hloc, hsp1]
      rw [if_pos ⟨hne, hhead⟩, if_pos ⟨hp0, hp1⟩, if_pos hnum]
      simp [recordSero]
    refine ⟨_, heq, ?_, ?_⟩
    · simp only [recordSero]
      exact lookupA_updateA_self _ _ _
    · simp only [recordSero, lookupD, lookupA_updateA_self, Option.getD_some]
      exact mem_setAdd_self _ _
  · intro hq
    have heq : dnaStep acc (p0 ++ ';' :: p1 ++ ';' :: p2 ++ ';' :: rest)
        = Except.ok { recordSero
            { acc with alleleData := (updateA acc.alleleData ['C']
                (setAdd (lookupD acc.alleleData ['C'] []) (p0 ++ p1))) }
            (to_2field (p0 ++ p1)) p2 ('C' :: 'w' :: p2) with stale := (some p2) } := by
      simp only [dnaStep, hline, hsplit, hloc]
      rw [if_pos ⟨hne, hhead⟩, if_pos ⟨hp0, hp1⟩, if_pos hnum, if_neg hq]
      simp [recordSero]
    refine ⟨_, heq, ?_, ?_⟩
    · simp only [recordSero]
      exact lookupA_updateA_self _ _ _
    · simp only [recordSero, lookupD, lookupA_updateA_self, Option.getD_some]
      exact mem_setAdd_self _ _

theorem c_locus_line_recording_witness :
    ∃ acc2, dnaStep DnaAcc.init ("C*;01:02;3;;".toList) = Except.ok acc2
      ∧ lookupA acc2.mts ("C*01:02".toList) = some ['3']
      ∧ "C*01:02".toList ∈ lookupD acc2.stm ("Cw3".toList) [] := by
  have h := (c_locus_line_recording DnaAcc.init ['C', '*'] "01:02".toList ['3'] [';']
    (by decide) (by decide) (by decide) (by decide) (by decide) (by decide) (by decide)
    (by decide) (by decide)).2 (by decide)
  exact h

/-! ### C3: broad expansion -/

/-- **C3.** For a broad antigen `B` mapped to `splits` in the
broad-to-splits index (with `B` and the splits in serological format and
the serological index holding 2-field alleles, as the loaders produce),
the molecular list for `B` with `expand_splits = true` contains every
allele of the unexpanded list for `B` and of each split's list, has no
duplicates, and is sorted ascending by the lexical order `StrR`. -/
theorem broad_expansion (st : ParserState) (B : List Char) (splits : List (List Char))
    (hB : lookupA st.broadToSplits B = some splits)
    (h2f : ∀ p ∈ st.stm, ∀ a ∈ p.2, to_2field a = a)
    (hserB : is_serological B = true)
    (hserS : ∀ S ∈ splits, is_serological S = true)
    (L : List (List Char))
    (hL : convert st B (some ("m".toList)) true ("split".toList)
      = Except.ok (ConvOut.mol L)) :
    (∀ L0, convert st B (some ("m".toList)) false ("split".toList)
        = Except.ok (ConvOut.mol L0) → ∀ a ∈ L0, a ∈ L)
    ∧ (∀ S ∈ splits, ∀ LS, convert st S (some ("m".toList)) false ("split".toList)
        = Except.ok (ConvOut.mol LS) → ∀ a ∈ LS, a ∈ L)
    ∧ L.Nodup ∧ L.Sorted StrR := by
  have hfix : ∀ (k a : List Char), a ∈ lookupD st.stm k [] → to_2field a = a := by
    intro k a ha
    unfold lookupD at ha
    cases hq : lookupA st.stm k with
    | none => rw [hq] at ha; simp at ha
    | some l =>
      rw [hq] at ha
      simp only [Option.getD_some] at ha
      exact h2f (k, l) (lookupA_mem hq) a ha
  have hgsm_false : ∀ s : List Char,
      get_serological_mapping st s false = lookupD st.stm s [] := by
    intro s
    simp [get_serological_mapping]
  have hraw : get_serological_mapping st B true
      = List.insertionSort StrR (List.dedup (lookupD st.stm B []
          ++ splits.flatMap (fun sp => lookupD st.stm sp []))) := by
    unfold get_serological_mapping
    simp only [hB, if_true]
  have hmolinv : ∀ (s : List Char), is_serological s = true → ∀ ex L1,
      to_molecular st s ex = Except.ok L1 →
      L1 = (get_serological_mapping st s ex).map to_2field := by
    intro s hser ex L1 hmol
    simp only [to_molecular, hser, if_true] at hmol
    split at hmol
    · cases hmol
    · split at hmol
      · cases hmol
      · exact (Except.ok.injEq _ _ ▸ hmol).symm
  rw [convert_target_m st B true ("split".toList) (Or.inl rfl)] at hL
  cases hmol : to_molecular st B true with
  | error e => rw [hmol] at hL; cases hL
  | ok L1 =>
    rw [hmol] at hL
    simp only [Except.ok.injEq, ConvOut.mol.injEq] at hL
    subst hL
    have hLmap := hmolinv B hserB true L1 hmol
    have hid : ∀ a ∈ get_serological_mapping st B true, to_2field a = a := by
      intro a ha
      rw [hraw, mem_sortDedup] at ha
      rcases List.mem_append.1 ha with h | h
      · exact hfix B a h
      · obtain ⟨sp, hsp, hmem⟩ := List.mem_flatMap.1 h
        exact hfix sp a hmem
    have hLr : L1 = get_serological_mapping st B true := by
      rw [hLmap]
      exact (List.map_congr_left hid).trans (List.map_id _)
    refine ⟨?_, ?_, ?_, ?_⟩
    · intro L0 hL0 a ha
      rw [convert_target_m st B false ("split".toList) (Or.inl rfl)] at hL0
      cases hmol0 : to_molecular st B false with
      | error e => rw [hmol0] at hL0; cases hL0
      | ok L2 =>
        rw [hmol0] at hL0
        simp only [Except.ok.injEq, ConvOut.mol.injEq] at hL0
        subst hL0
        have h2 := hmolinv B hserB false L2 hmol0
        rw [h2, hgsm_false] at ha
        obtain ⟨b, hb, hab⟩ := List.mem_map.1 ha
        rw [← hab, hfix B b hb]
        rw [hLr, hraw, mem_sortDedup]
        exact List.mem_append.2 (Or.inl hb)
    · intro S hS LS hLS a ha
      rw [convert_target_m st S false ("split".toList) (Or.inl rfl)] at hLS
      cases hmolS : to_molecular st S false with
      | error e => rw [hmolS] at hLS; cases hLS
      | ok L2 =>
        rw [hmolS] at hLS
        simp only [Except.ok.injEq, ConvOut.mol.injEq] at hLS
        subst hLS
        have h2 := hmolinv S (hserS S hS) false L2 hmolS
        rw [h2, hgsm_false] at ha
        obtain ⟨b, hb, hab⟩ := List.mem_map.1 ha
        rw [← hab, hfix S b hb]
        rw [hLr, hraw, mem_sortDedup]
        exact List.mem_append.2 (Or.inr (List.mem_flatMap.2 ⟨S, hS, hb⟩))
    · rw [hLr, hraw]
      exact (List.perm_insertionSort StrR _).nodup_iff.2 (List.nodup_dedup _)
    · rw [hLr, hraw]
      exact List.sorted_insertionSort StrR _

theorem broad_expansion_witness :
    (∀ L0, convert wSt1 ("A2".toList) (some ("m".toList)) false ("split".toList)
        = Except.ok (ConvOut.mol L0) → ∀ a ∈ L0, a ∈ ["A*02:01".toList, "A*02:03".toList])
    ∧ (∀ S ∈ ["A203".toList, "A210".toList], ∀ LS,
        convert wSt1 S (some ("m".toList)) false ("split".toList)
        = Except.ok (ConvOut.mol LS) → ∀ a ∈ LS, a ∈ ["A*02:01".toList, "A*02:03".toList])
    ∧ List.Nodup ["A*02:01".toList, "A*02:03".toList]
    ∧ List.Sorted StrR ["A*02:01".toList, "A*02:03".toList] :=
  broad_expansion wSt1 ("A2".toList) ["A203".toList, "A210".toList] (by decide) (by decide)
    (by decide) (by decide) ["A*02:01".toList, "A*02:03".toList] (by decide)

end Imgtsero
